import Mathlib

set_option maxHeartbeats 1000000

/-!
Verification of the language-independent IR lowering and optimization passes of
a graph-query compiler (source module: compiler/ir_lowering_common/common.py).

The instruction/expression data model and the bottom-up expression-rewrite
traversal capability live in collaborator modules that the specification
describes only at their interface boundary; they are modelled here from that
specification.  The seven passes themselves are translated directly from the
source module, statement by statement.
-/

/-- Modelled from the spec: a Location (from the missing helpers module) is an
immutable, equality-comparable identifier for a traversal position, optionally
carrying a field component; its location name is the pair of its mark name and
its field component. -/
structure Location where
  markName : String
  field : Option String
deriving DecidableEq

/-- Modelled from the spec: a FoldScopeLocation (from the missing helpers
module) identifies a folded scope and is used only as a key. -/
structure FoldScopeLocation where
  key : String
deriving DecidableEq

/-- Modelled from the spec: the expression variants relevant to this core
(from the missing expressions module).  LocalField stands for any further
expression kind that the passes leave untouched. -/
inductive Expression where
  | BinaryComposition (operator : String) (left right : Expression)
  | ContextField (location : Location) (fieldType : String)
  | ContextFieldExistence (location : Location)
  | OutputContextVertex (location : Location) (fieldType : String)
  | NullLiteral
  | TrueLiteral
  | FalseLiteral
  | LocalField (name : String)
deriving DecidableEq

/-- Modelled from the spec: the closed set of IR instruction variants relevant
to this core (from the missing blocks module). -/
inductive Block where
  | ConstructResult (fields : List (String × Expression))
  | EndOptional
  | Filter (predicate : Expression)
  | Fold (fold_scope_location : FoldScopeLocation)
  | MarkLocation (location : Location)
  | Recurse (edge_field : String)
  | Traverse (edge_field : String) (optional : Bool)
  | Unfold
deriving DecidableEq

/-- Modelled from the spec: the bottom-up expression-rewrite capability of the
expressions module: rewrite all children first, then apply the visitor to the
rebuilt node; leaf expressions just apply the visitor to themselves. -/
def Expression.visit_and_update (visitor_fn : Expression → Expression) :
    Expression → Expression
  | .BinaryComposition operator left right =>
      visitor_fn (.BinaryComposition operator (left.visit_and_update visitor_fn)
        (right.visit_and_update visitor_fn))
  | e => visitor_fn e

/-- Modelled from the spec: every instruction rewrites all contained
expressions bottom-up with a supplied function, producing a new instruction of
the same kind; instructions without expressions return themselves. -/
def Block.visit_and_update_expressions (visitor_fn : Expression → Expression) :
    Block → Block
  | .Filter predicate => .Filter (predicate.visit_and_update visitor_fn)
  | .ConstructResult fields =>
      .ConstructResult (fields.map (fun kv => (kv.1, kv.2.visit_and_update visitor_fn)))
  | b => b

/-- Modelled from the spec: get_location_name on a Location yields the mark
name together with the optional field component. -/
def Location.get_location_name (l : Location) : String × Option String :=
  (l.markName, l.field)

/-- Characters allowed in a safe identifier. -/
def isSafeStringChar (c : Char) : Bool :=
  c.isAlpha || c.isDigit || c == '_'

/-- Modelled from the spec: validate_safe_string from the missing helpers
module: the produced text must be a syntactically safe identifier (nonempty,
fixed allowed character set, no embedded control characters). -/
def validate_safe_string (s : String) : Except String Unit :=
  if (!s.isEmpty) && s.toList.all isSafeStringChar then .ok ()
  else .error "Not a safe string"

/-- Association-list update with dict semantics: replace the binding of the
key in place if present, otherwise append the new binding at the end. -/
def updateAssoc {α β : Type} [DecidableEq α] (m : List (α × β)) (k : α) (v : β) :
    List (α × β) :=
  if m.any (fun p => decide (p.1 = k)) then
    m.map (fun p => if p.1 = k then (k, v) else p)
  else m ++ [(k, v)]

/-- Association-list lookup returning the first binding of the key. -/
def lookupAssoc {α β : Type} [DecidableEq α] (m : List (α × β)) (k : α) : Option β :=
  match m with
  | [] => none
  | (a, b) :: rest => if a = k then some b else lookupAssoc rest k

/-- Apply a list of key-value updates, in order, to an association list. -/
def applyUpdates {α β : Type} [DecidableEq α] (m : List (α × β))
    (updates : List (α × β)) : List (α × β) :=
  updates.foldl (fun acc p => updateAssoc acc p.1 p.2) m

/-- Bool-valued check that an Except value is an error. -/
def exceptIsError {ε α : Type} : Except ε α → Bool
  | .error _ => true
  | .ok _ => false

/-! ## Source: merge_consecutive_filter_clauses -/

/-- Translated from the source: one iteration of the merge loop.  The emitted
blocks are kept reversed (head = last emitted block) to mirror the look-back
at the last element of new_ir_blocks: two adjacent Filters merge into one
Filter over the AND of their predicates, anything else is emitted as is. -/
def merge_filter_step (new_ir_blocks : List Block) (block : Block) : List Block :=
  match new_ir_blocks, block with
  | Block.Filter last_predicate :: tail, Block.Filter predicate =>
      Block.Filter (.BinaryComposition "&&" last_predicate predicate) :: tail
  | _, _ => block :: new_ir_blocks

/-- Translated from the source: merge consecutive Filter(x), Filter(y) blocks
into a Filter(x AND y) block. -/
def merge_consecutive_filter_clauses (ir_blocks : List Block) : List Block :=
  match ir_blocks with
  | [] => ir_blocks
  | first :: rest => (rest.foldl merge_filter_step [first]).reverse

/-! ## Source: OutputContextVertex -/

/-- Translated from the source: OutputContextVertex validation.  The
ContextField superclass validation (types of the stored fields) is trivially
satisfied in this typed embedding. -/
def output_context_vertex_validate (location : Location) : Except String Unit :=
  match location.field with
  | some _ => .error "Expected location at a vertex"
  | none => .ok ()

/-- Translated from the source: OutputContextVertex to_match rendering:
validate, take the location name, check that the mark name is a safe string,
fail on a field component, and return the mark name. -/
def output_context_vertex_to_match (location : Location) : Except String String :=
  match output_context_vertex_validate location with
  | .error e => .error e
  | .ok _ =>
    let mark_name := (location.get_location_name).1
    let field_name := (location.get_location_name).2
    match validate_safe_string mark_name with
    | .error e => .error e
    | .ok _ =>
      match field_name with
      | some _ => .error "Vertex location has non-None field_name"
      | none => .ok mark_name

/-! ## Source: lower_context_field_existence -/

/-- Translated from the source: visitor used in blocks other than
ConstructResult; rewrites ContextFieldExistence into a ContextField
comparison against NullLiteral. -/
def regular_visitor_fn (query_metadata_table : Location → String)
    (expression : Expression) : Expression :=
  match expression with
  | .ContextFieldExistence location =>
      .BinaryComposition "!="
        (.ContextField location (query_metadata_table location)) .NullLiteral
  | e => e

/-- Translated from the source: visitor used in ConstructResult blocks;
rewrites ContextFieldExistence into an OutputContextVertex comparison against
NullLiteral. -/
def construct_result_visitor_fn (query_metadata_table : Location → String)
    (expression : Expression) : Expression :=
  match expression with
  | .ContextFieldExistence location =>
      .BinaryComposition "!="
        (.OutputContextVertex location (query_metadata_table location)) .NullLiteral
  | e => e

/-- Translated from the source: lower ContextFieldExistence expressions into
lower-level expressions, choosing the visitor by the kind of the containing
block.  The metadata lookup collaborator is a total function from locations to
their declared type. -/
def lower_context_field_existence (ir_blocks : List Block)
    (query_metadata_table : Location → String) : List Block :=
  ir_blocks.map (fun block =>
    match block with
    | Block.ConstructResult _ =>
        block.visit_and_update_expressions (construct_result_visitor_fn query_metadata_table)
    | _ =>
        block.visit_and_update_expressions (regular_visitor_fn query_metadata_table))

/-! ## Source: optimize_boolean_expression_comparisons -/

/-- Translated from the source: the operator_inverses table. -/
def operator_inverse : String → Option String
  | "=" => some "!="
  | "!=" => some "="
  | _ => none

/-- Whether an expression is a BinaryComposition. -/
def Expression.isBinaryComposition : Expression → Bool
  | .BinaryComposition _ _ _ => true
  | _ => false

/-- Translated from the source: the visitor of
optimize_boolean_expression_comparisons, which simplifies comparisons of a
boolean binary comparison expression against a boolean literal. -/
def optimize_visitor_fn (expression : Expression) : Expression :=
  match expression with
  | .BinaryComposition operator left right =>
    let left_is_binary_composition := left.isBinaryComposition
    let right_is_binary_composition := right.isBinaryComposition
    if !left_is_binary_composition && !right_is_binary_composition then
      expression
    else
      match (if operator = "=" then
               some (Expression.TrueLiteral, Expression.FalseLiteral)
             else if operator = "!=" then
               some (Expression.FalseLiteral, Expression.TrueLiteral)
             else none) with
      | none => expression
      | some (identity_literal, inverse_literal) =>
        if left = identity_literal && right_is_binary_composition then right
        else if right = identity_literal && left_is_binary_composition then left
        else
          match (if left = inverse_literal && right_is_binary_composition then some right
                 else if right = inverse_literal && left_is_binary_composition then some left
                 else none) with
          | none => expression
          | some (.BinaryComposition inner_operator inner_left inner_right) =>
            match operator_inverse inner_operator with
            | none => expression
            | some opInv => .BinaryComposition opInv inner_left inner_right
          | some _ => expression
  | e => e

/-- Translated from the source: apply the boolean-comparison optimization to
every expression of every block. -/
def optimize_boolean_expression_comparisons (ir_blocks : List Block) : List Block :=
  ir_blocks.map (fun block => block.visit_and_update_expressions optimize_visitor_fn)

/-! ## Source: extract_folds_from_ir_blocks -/

/-- Translated from the source: the loop of extract_folds_from_ir_blocks,
carrying the folds association list, the remaining blocks, the blocks of the
currently open fold, and the currently open fold location. -/
def extract_folds_loop (folds : List (FoldScopeLocation × List Block))
    (remaining_ir_blocks : List Block) (current_folded_blocks : List Block)
    (in_fold_location : Option FoldScopeLocation) :
    List Block → Except String (List (FoldScopeLocation × List Block) × List Block)
  | [] => .ok (folds, remaining_ir_blocks)
  | block :: rest =>
    match block with
    | Block.Fold l =>
      match in_fold_location with
      | some _ => .error "in_fold_location was not None at a Fold block"
      | none => extract_folds_loop folds remaining_ir_blocks current_folded_blocks (some l) rest
    | Block.Unfold =>
      match in_fold_location with
      | none => .error "in_fold_location was None at an Unfold block"
      | some l =>
          extract_folds_loop (updateAssoc folds l current_folded_blocks)
            remaining_ir_blocks [] none rest
    | _ =>
      match in_fold_location with
      | some _ =>
          extract_folds_loop folds remaining_ir_blocks
            (current_folded_blocks ++ [block]) in_fold_location rest
      | none =>
          extract_folds_loop folds (remaining_ir_blocks ++ [block])
            current_folded_blocks in_fold_location rest

/-- Translated from the source: extract all fold data from the IR blocks and
cut the folded IR blocks out of the IR. -/
def extract_folds_from_ir_blocks (ir_blocks : List Block) :
    Except String (List (FoldScopeLocation × List Block) × List Block) :=
  extract_folds_loop [] [] [] none ir_blocks

/-! ## Source: extract_optional_location_root_info -/

/-- Whether a block is a Traverse or a Recurse. -/
def isTraverseOrRecurse : Block → Bool
  | Block.Traverse _ _ => true
  | Block.Recurse _ => true
  | _ => false

/-- The scan state of extract_optional_location_root_info.  The two parallel
stacks of the source (optional root locations, and whether the innermost open
optional has seen a nested Traverse or Recurse) are kept as one stack of pairs
with the innermost scope at the head; a raised error freezes the state. -/
structure OptState where
  complex_optional_roots : List Location
  location_to_optional_roots : List (Location × List Location)
  stack : List (Location × Bool)
  preceding_location : Option Location
  error : Option String
deriving DecidableEq

/-- The initial scan state. -/
def initOptState : OptState :=
  { complex_optional_roots := []
    location_to_optional_roots := []
    stack := []
    preceding_location := none
    error := none }

/-- Set the flag of the innermost open optional scope. -/
def flagInnermost : List (Location × Bool) → List (Location × Bool)
  | [] => []
  | (r, _) :: t => (r, true) :: t

/-- Translated from the source: one step of the extract_optional_location_root_info
scan.  A Traverse or Recurse while an optional scope is open first flags the
innermost scope; then an optional Traverse pushes the preceding location as a
new root, EndOptional records a flagged root as complex and pops, and
MarkLocation updates the preceding location and snapshots the root stack
(outermost first) for that location. -/
def optStep (s : OptState) (b : Block) : OptState :=
  match s.error with
  | some _ => s
  | none =>
    let s1 :=
      if (!s.stack.isEmpty) && isTraverseOrRecurse b then
        { s with stack := flagInnermost s.stack }
      else s
    match b with
    | Block.Traverse _ true =>
      match s1.preceding_location with
      | none => { s1 with error := some "No MarkLocation found before an optional Traverse" }
      | some loc => { s1 with stack := (loc, false) :: s1.stack }
    | Block.EndOptional =>
      match s1.stack with
      | [] => { s1 with error := some "in_optional_root_locations was empty at an EndOptional block" }
      | (r, f) :: t =>
        { s1 with
            complex_optional_roots :=
              if f then s1.complex_optional_roots ++ [r] else s1.complex_optional_roots
            stack := t }
    | Block.MarkLocation loc =>
      { s1 with
          preceding_location := some loc
          location_to_optional_roots :=
            if s1.stack.isEmpty then s1.location_to_optional_roots
            else updateAssoc s1.location_to_optional_roots loc
              ((s1.stack.map Prod.fst).reverse) }
    | _ => s1

/-- Translated from the source: construct the complex optional roots and the
mapping from locations within optionals to their stacks of enclosing optional
roots.  Blocks within folded scopes are first removed. -/
def extract_optional_location_root_info (ir_blocks : List Block) :
    Except String (List Location × List (Location × List Location)) :=
  match extract_folds_from_ir_blocks ir_blocks with
  | .error e => .error e
  | .ok (_, non_folded_ir_blocks) =>
    let final := non_folded_ir_blocks.foldl optStep initOptState
    match final.error with
    | some e => .error e
    | none => .ok (final.complex_optional_roots, final.location_to_optional_roots)

/-! ## Source: extract_simple_optional_location_info -/

/-- The per-root information computed by extract_simple_optional_location_info. -/
structure SimpleOptionalInfo where
  inner_location_name : String
  edge_field : String
deriving DecidableEq

/-- Translated from the source: the re-scan loop of
extract_simple_optional_location_info, pairing each simple optional root with
the edge field of its optional Traverse and the name of its inner location. -/
def simple_optional_loop (simple_optional_root_to_inner_location : List (Location × Location))
    (acc : List (Location × SimpleOptionalInfo)) (preceding_location : Option Location) :
    List Block → List (Location × SimpleOptionalInfo)
  | [] => acc
  | block :: rest =>
    match block with
    | Block.MarkLocation loc =>
        simple_optional_loop simple_optional_root_to_inner_location acc (some loc) rest
    | Block.Traverse edge_field true =>
      match preceding_location with
      | some p =>
        match lookupAssoc simple_optional_root_to_inner_location p with
        | some inner_location =>
            simple_optional_loop simple_optional_root_to_inner_location
              (updateAssoc acc p
                { inner_location_name := (inner_location.get_location_name).1
                  edge_field := edge_field })
              preceding_location rest
        | none =>
            simple_optional_loop simple_optional_root_to_inner_location acc
              preceding_location rest
      | none =>
          simple_optional_loop simple_optional_root_to_inner_location acc
            preceding_location rest
    | _ =>
        simple_optional_loop simple_optional_root_to_inner_location acc
          preceding_location rest

/-- Translated from the source: the mapping from each location within
optionals to the innermost root of its stack (the last stack element), in
order.  Taking the last element of an empty stack raises an IndexError in the
source, modelled here as the error case. -/
def location_to_preceding_optional_root :
    List (Location × List Location) → Except String (List (Location × Location))
  | [] => .ok []
  | (location, optional_root_locations_stack) :: rest =>
    match optional_root_locations_stack.getLast? with
    | none => .error "IndexError: list index out of range"
    | some root =>
      match location_to_preceding_optional_root rest with
      | .error e => .error e
      | .ok tail => .ok ((location, root) :: tail)

/-- Translated from the source: invert the location-to-roots mapping (keeping
the innermost root of each stack), filter out the complex roots, and re-scan
the non-folded blocks to pair each simple optional root with its inner
location name and traversed edge field. -/
def extract_simple_optional_location_info (ir_blocks : List Block)
    (complex_optional_roots : List Location)
    (location_to_optional_roots : List (Location × List Location)) :
    Except String (List (Location × SimpleOptionalInfo)) :=
  match location_to_preceding_optional_root location_to_optional_roots with
  | .error e => .error e
  | .ok location_to_preceding =>
    match extract_folds_from_ir_blocks ir_blocks with
    | .error e => .error e
    | .ok (_, non_folded_ir_blocks) =>
        .ok (simple_optional_loop
          (location_to_preceding.foldl
            (fun acc p =>
              if p.2 ∈ complex_optional_roots then acc else updateAssoc acc p.2 p.1) [])
          [] none non_folded_ir_blocks)

/-! ## Source: remove_end_optionals -/

/-- Translated from the source: return a copy of the IR blocks with every
EndOptional block removed. -/
def remove_end_optionals (ir_blocks : List Block) : List Block :=
  ir_blocks.filter (fun block =>
    match block with
    | Block.EndOptional => false
    | _ => true)

/-! ## Specification-side reference definitions

The following definitions restate, in the specification's own vocabulary, what
the passes are claimed to compute; the theorems below compare them with the
source-translated functions above. -/

/-- Whether a block is a Fold marker. -/
def isFold : Block → Bool
  | Block.Fold _ => true
  | _ => false

/-- Whether a block is an Unfold marker. -/
def isUnfold : Block → Bool
  | Block.Unfold => true
  | _ => false

/-- The fold scope locations of the Fold markers of a sequence, in order. -/
def foldLocations (ir_blocks : List Block) : List FoldScopeLocation :=
  ir_blocks.filterMap (fun b =>
    match b with
    | Block.Fold l => some l
    | _ => none)

/-- Fold/Unfold well-nesting: every Fold is closed by exactly one Unfold
before another Fold opens, no stray Unfold, and no fold left open at the end.
The flag records whether a fold scope is currently open. -/
def foldsWellNested : Bool → List Block → Bool
  | false, [] => true
  | true, [] => false
  | false, Block.Fold _ :: rest => foldsWellNested true rest
  | true, Block.Fold _ :: _ => false
  | true, Block.Unfold :: rest => foldsWellNested false rest
  | false, Block.Unfold :: _ => false
  | inFold, _ :: rest => foldsWellNested inFold rest

/-- Whether the fold-extraction scan hits a structural-invariant violation: a
Fold encountered while a fold scope is already open, or an Unfold encountered
with no open fold scope.  The flag records whether a fold scope is open. -/
def foldScanViolation : Bool → List Block → Bool
  | _, [] => false
  | inFold, Block.Fold _ :: rest => inFold || foldScanViolation true rest
  | inFold, Block.Unfold :: rest => !inFold || foldScanViolation false rest
  | inFold, _ :: rest => foldScanViolation inFold rest

/-- Split a block list at its first Unfold marker: the blocks strictly before
it, and the blocks strictly after it. -/
def splitAtUnfold : List Block → Option (List Block × List Block)
  | [] => none
  | Block.Unfold :: rest => some ([], rest)
  | b :: rest => (splitAtUnfold rest).map (fun p => (b :: p.1, p.2))

/-- The fold partition, in the claim's words: a mapping from each
FoldScopeLocation to the ordered instructions strictly between its Fold and
Unfold markers (both markers excluded), together with the ordered instructions
outside all fold scopes. -/
def splitFolds (ir_blocks : List Block) :
    Option (List (FoldScopeLocation × List Block) × List Block) :=
  match ir_blocks with
  | [] => some ([], [])
  | Block.Fold loc :: rest =>
    match h : splitAtUnfold rest with
    | none => none
    | some (body, rest2) =>
      (splitFolds rest2).map (fun p => ((loc, body) :: p.1, p.2))
  | Block.Unfold :: _ => none
  | b :: rest => (splitFolds rest).map (fun p => (p.1, b :: p.2))
termination_by ir_blocks.length
decreasing_by
  · have key : ∀ (l body r2 : List Block), splitAtUnfold l = some (body, r2) →
        body.length + r2.length + 1 = l.length := by
      intro l
      induction l with
      | nil => intro body r2 hh; simp [splitAtUnfold] at hh
      | cons b t ih =>
        intro body r2 hh
        cases b
        case Unfold =>
          simp only [splitAtUnfold, Option.some.injEq, Prod.mk.injEq] at hh
          simp [← hh.1, ← hh.2]
        all_goals
          simp only [splitAtUnfold] at hh
          cases hs : splitAtUnfold t with
          | none => rw [hs] at hh; simp at hh
          | some p =>
            rw [hs] at hh
            simp only [Option.map_some', Option.some.injEq, Prod.mk.injEq] at hh
            have hlen := ih p.1 p.2 (by rw [hs])
            simp only [← hh.1, ← hh.2, List.length_cons]
            omega
    have := key _ _ _ h
    simp
    omega
  · simp

/-- Re-splice extracted fold contents back into the original sequence: at each
Fold marker, emit fresh Fold/Unfold markers at the original position with the
extracted instructions of that fold scope between them, skipping the original
scope contents. -/
def resplice (folds : List (FoldScopeLocation × List Block)) (ir_blocks : List Block) :
    List Block :=
  match ir_blocks with
  | [] => []
  | Block.Fold loc :: rest =>
    match h : splitAtUnfold rest with
    | none => Block.Fold loc :: rest
    | some (_, rest2) =>
      Block.Fold loc :: ((lookupAssoc folds loc).getD [] ++
        Block.Unfold :: resplice folds rest2)
  | b :: rest => b :: resplice folds rest
termination_by ir_blocks.length
decreasing_by
  · have key : ∀ (l body r2 : List Block), splitAtUnfold l = some (body, r2) →
        body.length + r2.length + 1 = l.length := by
      intro l
      induction l with
      | nil => intro body r2 hh; simp [splitAtUnfold] at hh
      | cons b t ih =>
        intro body r2 hh
        cases b
        case Unfold =>
          simp only [splitAtUnfold, Option.some.injEq, Prod.mk.injEq] at hh
          simp [← hh.1, ← hh.2]
        all_goals
          simp only [splitAtUnfold] at hh
          cases hs : splitAtUnfold t with
          | none => rw [hs] at hh; simp at hh
          | some p =>
            rw [hs] at hh
            simp only [Option.map_some', Option.some.injEq, Prod.mk.injEq] at hh
            have hlen := ih p.1 p.2 (by rw [hs])
            simp only [← hh.1, ← hh.2, List.length_cons]
            omega
    have := key _ _ _ h
    simp
    omega
  · simp

/-- The filter-merge contract in the claim's words: every maximal run of
consecutive Filter blocks collapses into one Filter whose predicate is the
left-to-right AND of the run's predicates; all other blocks and non-adjacent
Filters are untouched and keep their order. -/
def mergeFiltersSpec (ir_blocks : List Block) : List Block :=
  match ir_blocks with
  | [] => []
  | [b] => [b]
  | Block.Filter p :: Block.Filter q :: rest =>
      mergeFiltersSpec (Block.Filter (.BinaryComposition "&&" p q) :: rest)
  | b1 :: b2 :: rest => b1 :: mergeFiltersSpec (b2 :: rest)
termination_by ir_blocks.length
decreasing_by
  · simp
  · simp

/-- Split a block list at the EndOptional matching nesting depth zero,
counting optional Traverses as scope openers: returns the blocks strictly
before that EndOptional and the blocks strictly after it. -/
def splitAtMatchingEndOptional (depth : Nat) : List Block → Option (List Block × List Block)
  | [] => none
  | Block.EndOptional :: rest =>
    match depth with
    | 0 => some ([], rest)
    | d + 1 =>
      (splitAtMatchingEndOptional d rest).map (fun p => (Block.EndOptional :: p.1, p.2))
  | Block.Traverse e true :: rest =>
      (splitAtMatchingEndOptional (depth + 1) rest).map
        (fun p => (Block.Traverse e true :: p.1, p.2))
  | b :: rest =>
      (splitAtMatchingEndOptional depth rest).map (fun p => (b :: p.1, p.2))

/-- The optional-scope root analysis in the claim's words, by recursive
descent over the well-nested scope structure.  The parameter roots is the
ordered stack of enclosing optional root locations, outermost first, and prec
is the most recently marked location.  For each optional Traverse the most
recently marked location is that scope's root; the root is complex exactly
when the scope body contains at least one Traverse or Recurse instruction
before its closing EndOptional; and every location marked while at least one
optional scope is open is mapped to the enclosing roots, outermost first.
Returns the complex roots (in scope-closing order), the marked-location
snapshots (in encounter order), and the final most recently marked location;
none on a sequence that is not well nested. -/
def specOptionalAnalysis (roots : List Location) (prec : Option Location)
    (bs : List Block) :
    Option (List Location × List (Location × List Location) × Option Location) :=
  match bs with
  | [] => some ([], [], prec)
  | Block.MarkLocation l :: rest =>
      (specOptionalAnalysis roots (some l) rest).map (fun r =>
        (r.1, (if roots.isEmpty then r.2.1 else (l, roots) :: r.2.1), r.2.2))
  | Block.Traverse _ true :: rest =>
    match prec with
    | none => none
    | some root =>
      match h : splitAtMatchingEndOptional 0 rest with
      | none => none
      | some (body, rest2) =>
        match specOptionalAnalysis (roots ++ [root]) prec body with
        | none => none
        | some (cB, mB, pB) =>
          match specOptionalAnalysis roots pB rest2 with
          | none => none
          | some (cC, mC, pC) =>
            some (cB ++ (if body.any isTraverseOrRecurse then [root] else []) ++ cC,
                  mB ++ mC, pC)
  | Block.EndOptional :: _ => none
  | _ :: rest => specOptionalAnalysis roots prec rest
termination_by bs.length
decreasing_by
  · simp
  · have key : ∀ (l : List Block) (d : Nat) (body r2 : List Block),
        splitAtMatchingEndOptional d l = some (body, r2) →
        body.length + r2.length + 1 = l.length := by
      intro l
      induction l with
      | nil => intro d body r2 hh; simp [splitAtMatchingEndOptional] at hh
      | cons b t ih =>
        intro d body r2 hh
        cases b
        case EndOptional =>
          cases d with
          | zero =>
            simp only [splitAtMatchingEndOptional, Option.some.injEq, Prod.mk.injEq] at hh
            simp [← hh.1, ← hh.2]
          | succ d =>
            simp only [splitAtMatchingEndOptional] at hh
            cases hs : splitAtMatchingEndOptional d t with
            | none => rw [hs] at hh; simp at hh
            | some p =>
              rw [hs] at hh
              simp only [Option.map_some', Option.some.injEq, Prod.mk.injEq] at hh
              have hlen := ih d p.1 p.2 (by rw [hs])
              simp only [← hh.1, ← hh.2, List.length_cons]
              omega
        case Traverse e opt =>
          cases opt
          case true =>
            simp only [splitAtMatchingEndOptional] at hh
            cases hs : splitAtMatchingEndOptional (d + 1) t with
            | none => rw [hs] at hh; simp at hh
            | some p =>
              rw [hs] at hh
              simp only [Option.map_some', Option.some.injEq, Prod.mk.injEq] at hh
              have hlen := ih (d + 1) p.1 p.2 (by rw [hs])
              simp only [← hh.1, ← hh.2, List.length_cons]
              omega
          case false =>
            simp only [splitAtMatchingEndOptional] at hh
            cases hs : splitAtMatchingEndOptional d t with
            | none => rw [hs] at hh; simp at hh
            | some p =>
              rw [hs] at hh
              simp only [Option.map_some', Option.some.injEq, Prod.mk.injEq] at hh
              have hlen := ih d p.1 p.2 (by rw [hs])
              simp only [← hh.1, ← hh.2, List.length_cons]
              omega
        all_goals
          simp only [splitAtMatchingEndOptional] at hh
          cases hs : splitAtMatchingEndOptional d t with
          | none => rw [hs] at hh; simp at hh
          | some p =>
            rw [hs] at hh
            simp only [Option.map_some', Option.some.injEq, Prod.mk.injEq] at hh
            have hlen := ih d p.1 p.2 (by rw [hs])
            simp only [← hh.1, ← hh.2, List.length_cons]
            omega
    have := key _ _ _ _ h
    simp
    omega
  · have key : ∀ (l : List Block) (d : Nat) (body r2 : List Block),
        splitAtMatchingEndOptional d l = some (body, r2) →
        body.length + r2.length + 1 = l.length := by
      intro l
      induction l with
      | nil => intro d body r2 hh; simp [splitAtMatchingEndOptional] at hh
      | cons b t ih =>
        intro d body r2 hh
        cases b
        case EndOptional =>
          cases d with
          | zero =>
            simp only [splitAtMatchingEndOptional, Option.some.injEq, Prod.mk.injEq] at hh
            simp [← hh.1, ← hh.2]
          | succ d =>
            simp only [splitAtMatchingEndOptional] at hh
            cases hs : splitAtMatchingEndOptional d t with
            | none => rw [hs] at hh; simp at hh
            | some p =>
              rw [hs] at hh
              simp only [Option.map_some', Option.some.injEq, Prod.mk.injEq] at hh
              have hlen := ih d p.1 p.2 (by rw [hs])
              simp only [← hh.1, ← hh.2, List.length_cons]
              omega
        case Traverse e opt =>
          cases opt
          case true =>
            simp only [splitAtMatchingEndOptional] at hh
            cases hs : splitAtMatchingEndOptional (d + 1) t with
            | none => rw [hs] at hh; simp at hh
            | some p =>
              rw [hs] at hh
              simp only [Option.map_some', Option.some.injEq, Prod.mk.injEq] at hh
              have hlen := ih (d + 1) p.1 p.2 (by rw [hs])
              simp only [← hh.1, ← hh.2, List.length_cons]
              omega
          case false =>
            simp only [splitAtMatchingEndOptional] at hh
            cases hs : splitAtMatchingEndOptional d t with
            | none => rw [hs] at hh; simp at hh
            | some p =>
              rw [hs] at hh
              simp only [Option.map_some', Option.some.injEq, Prod.mk.injEq] at hh
              have hlen := ih d p.1 p.2 (by rw [hs])
              simp only [← hh.1, ← hh.2, List.length_cons]
              omega
        all_goals
          simp only [splitAtMatchingEndOptional] at hh
          cases hs : splitAtMatchingEndOptional d t with
          | none => rw [hs] at hh; simp at hh
          | some p =>
            rw [hs] at hh
            simp only [Option.map_some', Option.some.injEq, Prod.mk.injEq] at hh
            have hlen := ih d p.1 p.2 (by rw [hs])
            simp only [← hh.1, ← hh.2, List.length_cons]
            omega
    have := key _ _ _ _ h
    simp
    omega
  · simp

/-- The most recently marked location after scanning a block list, starting
from a given previously marked location. -/
def lastMarkFrom (prec : Option Location) : List Block → Option Location
  | [] => prec
  | Block.MarkLocation l :: rest => lastMarkFrom (some l) rest
  | _ :: rest => lastMarkFrom prec rest

/-- Whether a block is a Filter. -/
def isFilter : Block → Bool
  | Block.Filter _ => true
  | _ => false

/-- The context-field-existence replacement, in the claim's words: every
ContextFieldExistence(location) node anywhere in an expression becomes a
BinaryComposition of inequality between a vertex-context reference (built by
the supplied maker from the location and its looked-up type) and NullLiteral;
every other node passes through unchanged. -/
def replaceExistence (mk : Location → String → Expression)
    (query_metadata_table : Location → String) : Expression → Expression
  | .BinaryComposition operator left right =>
      .BinaryComposition operator (replaceExistence mk query_metadata_table left)
        (replaceExistence mk query_metadata_table right)
  | .ContextFieldExistence location =>
      .BinaryComposition "!=" (mk location (query_metadata_table location)) .NullLiteral
  | e => e

/-- Whether an expression contains a ContextFieldExistence node anywhere. -/
def Expression.hasContextFieldExistence : Expression → Bool
  | .BinaryComposition _ left right =>
      left.hasContextFieldExistence || right.hasContextFieldExistence
  | .ContextFieldExistence _ => true
  | _ => false

/-- Whether a block contains a ContextFieldExistence node anywhere. -/
def Block.hasContextFieldExistence : Block → Bool
  | .Filter predicate => predicate.hasContextFieldExistence
  | .ConstructResult fields => fields.any (fun kv => kv.2.hasContextFieldExistence)
  | _ => false

/-- The per-block existence replacement, in the claim's words: the
vertex-context reference is an OutputContextVertex when the containing
instruction is a ConstructResult and a plain ContextField in every other
instruction. -/
def replaceExistenceInBlock (query_metadata_table : Location → String) : Block → Block
  | .ConstructResult fields =>
      .ConstructResult (fields.map (fun kv =>
        (kv.1, replaceExistence (fun l t => .OutputContextVertex l t)
          query_metadata_table kv.2)))
  | .Filter predicate =>
      .Filter (replaceExistence (fun l t => .ContextField l t)
        query_metadata_table predicate)
  | b => b

/-- The inverse boolean literal of a comparison operator: the literal whose
match requires inverting the inner comparison. -/
def inverseLiteralFor : String → Expression
  | "=" => Expression.FalseLiteral
  | _ => Expression.TrueLiteral

/-- Disjoin a flag onto the innermost entry of an optional-scope stack. -/
def flagStackIf (s : List (Location × Bool)) (b : Bool) : List (Location × Bool) :=
  match s with
  | [] => []
  | (r, f) :: t => (r, f || b) :: t

/-! # Theorems -/

/-! ## Properties of the splitting helpers -/

theorem splitAtUnfold_eq : ∀ (l body rest : List Block),
    splitAtUnfold l = some (body, rest) → l = body ++ Block.Unfold :: rest := by
  intro l
  induction l with
  | nil => intro body rest h; simp [splitAtUnfold] at h
  | cons b t ih =>
    intro body rest h
    cases b
    case Unfold =>
      simp only [splitAtUnfold, Option.some.injEq, Prod.mk.injEq] at h
      simp [← h.1, ← h.2]
    all_goals
      simp only [splitAtUnfold] at h
      cases hs : splitAtUnfold t with
      | none => rw [hs] at h; simp at h
      | some p =>
        rw [hs] at h
        simp only [Option.map_some', Option.some.injEq, Prod.mk.injEq] at h
        have ht := ih p.1 p.2 (by rw [hs])
        simp [← h.1, ← h.2, ht]

theorem splitAtUnfold_length {l body rest : List Block}
    (h : splitAtUnfold l = some (body, rest)) :
    body.length + rest.length + 1 = l.length := by
  have := splitAtUnfold_eq l body rest h
  subst this
  simp
  omega

theorem splitAtUnfold_no_unfold : ∀ (body rest : List Block),
    body.all (fun b => !isUnfold b) →
    splitAtUnfold (body ++ Block.Unfold :: rest) = some (body, rest) := by
  intro body
  induction body with
  | nil => intro rest _; rfl
  | cons b t ih =>
    intro rest hall
    simp only [List.all_cons, Bool.and_eq_true] at hall
    cases b
    case Unfold => simp [isUnfold] at hall
    all_goals
      simp [List.cons_append, splitAtUnfold, ih rest hall.2]

theorem splitAtMatchingEndOptional_eq :
    ∀ (l : List Block) (d : Nat) (body rest : List Block),
    splitAtMatchingEndOptional d l = some (body, rest) →
    l = body ++ Block.EndOptional :: rest := by
  intro l
  induction l with
  | nil => intro d body rest h; simp [splitAtMatchingEndOptional] at h
  | cons b t ih =>
    intro d body rest h
    cases b
    case EndOptional =>
      cases d with
      | zero =>
        simp only [splitAtMatchingEndOptional, Option.some.injEq, Prod.mk.injEq] at h
        simp [← h.1, ← h.2]
      | succ d =>
        simp only [splitAtMatchingEndOptional] at h
        cases hs : splitAtMatchingEndOptional d t with
        | none => rw [hs] at h; simp at h
        | some p =>
          rw [hs] at h
          simp only [Option.map_some', Option.some.injEq, Prod.mk.injEq] at h
          have ht := ih d p.1 p.2 (by rw [hs])
          simp [← h.1, ← h.2, ht]
    case Traverse e opt =>
      cases opt
      case true =>
        simp only [splitAtMatchingEndOptional] at h
        cases hs : splitAtMatchingEndOptional (d + 1) t with
        | none => rw [hs] at h; simp at h
        | some p =>
          rw [hs] at h
          simp only [Option.map_some', Option.some.injEq, Prod.mk.injEq] at h
          have ht := ih (d + 1) p.1 p.2 (by rw [hs])
          simp [← h.1, ← h.2, ht]
      case false =>
        simp only [splitAtMatchingEndOptional] at h
        cases hs : splitAtMatchingEndOptional d t with
        | none => rw [hs] at h; simp at h
        | some p =>
          rw [hs] at h
          simp only [Option.map_some', Option.some.injEq, Prod.mk.injEq] at h
          have ht := ih d p.1 p.2 (by rw [hs])
          simp [← h.1, ← h.2, ht]
    all_goals
      simp only [splitAtMatchingEndOptional] at h
      cases hs : splitAtMatchingEndOptional d t with
      | none => rw [hs] at h; simp at h
      | some p =>
        rw [hs] at h
        simp only [Option.map_some', Option.some.injEq, Prod.mk.injEq] at h
        have ht := ih d p.1 p.2 (by rw [hs])
        simp [← h.1, ← h.2, ht]

/-! ## Unfolding equations for specOptionalAnalysis -/

theorem specOpt_nil (roots : List Location) (prec : Option Location) :
    specOptionalAnalysis roots prec [] = some ([], [], prec) := by
  rw [specOptionalAnalysis]

theorem specOpt_mark (roots : List Location) (prec : Option Location) (l : Location)
    (rest : List Block) :
    specOptionalAnalysis roots prec (Block.MarkLocation l :: rest) =
      (specOptionalAnalysis roots (some l) rest).map (fun r =>
        (r.1, (if roots.isEmpty then r.2.1 else (l, roots) :: r.2.1), r.2.2)) := by
  rw [specOptionalAnalysis]

theorem specOpt_traverse_none (roots : List Location) (e : String) (rest : List Block) :
    specOptionalAnalysis roots none (Block.Traverse e true :: rest) = none := by
  rw [specOptionalAnalysis]

theorem specOpt_traverse (roots : List Location) (root : Location) (e : String)
    (rest body rest2 : List Block)
    (hs : splitAtMatchingEndOptional 0 rest = some (body, rest2)) :
    specOptionalAnalysis roots (some root) (Block.Traverse e true :: rest) =
      (match specOptionalAnalysis (roots ++ [root]) (some root) body with
      | none => none
      | some (cB, mB, pB) =>
        match specOptionalAnalysis roots pB rest2 with
        | none => none
        | some (cC, mC, pC) =>
          some (cB ++ (if body.any isTraverseOrRecurse then [root] else []) ++ cC,
                mB ++ mC, pC)) := by
  rw [specOptionalAnalysis]
  split
  · rename_i heq; rw [heq] at hs; exact absurd hs (by simp)
  · rename_i b2 r2 heq
    rw [heq] at hs
    simp only [Option.some.injEq, Prod.mk.injEq] at hs
    rw [hs.1, hs.2]

theorem specOpt_traverse_split_none (roots : List Location) (root : Location) (e : String)
    (rest : List Block) (hs : splitAtMatchingEndOptional 0 rest = none) :
    specOptionalAnalysis roots (some root) (Block.Traverse e true :: rest) = none := by
  rw [specOptionalAnalysis]
  split
  · rfl
  · rename_i b2 r2 heq; rw [heq] at hs; simp at hs

theorem specOpt_endoptional (roots : List Location) (prec : Option Location)
    (rest : List Block) :
    specOptionalAnalysis roots prec (Block.EndOptional :: rest) = none := by
  rw [specOptionalAnalysis]

theorem specOpt_skip (roots : List Location) (prec : Option Location) (b : Block)
    (rest : List Block)
    (hmark : ∀ l, b ≠ Block.MarkLocation l)
    (htrav : ∀ e, b ≠ Block.Traverse e true)
    (hend : b ≠ Block.EndOptional) :
    specOptionalAnalysis roots prec (b :: rest) = specOptionalAnalysis roots prec rest := by
  cases b
  case MarkLocation l => exact absurd rfl (hmark l)
  case EndOptional => exact absurd rfl hend
  case Traverse e opt =>
    cases opt
    case true => exact absurd rfl (htrav e)
    case false => rw [specOptionalAnalysis] <;> simp
  all_goals (rw [specOptionalAnalysis] <;> simp)

/-! ## Association list and stack helper lemmas -/

theorem applyUpdates_append {α β : Type} [DecidableEq α] (m : List (α × β))
    (u1 u2 : List (α × β)) :
    applyUpdates m (u1 ++ u2) = applyUpdates (applyUpdates m u1) u2 := by
  simp [applyUpdates, List.foldl_append]

theorem updateAssoc_not_mem {α β : Type} [DecidableEq α] (m : List (α × β)) (k : α)
    (v : β) (h : k ∉ m.map Prod.fst) : updateAssoc m k v = m ++ [(k, v)] := by
  have hany : m.any (fun p => decide (p.1 = k)) = false := by
    rw [List.any_eq_false]
    intro p hp
    simp only [decide_eq_true_eq]
    intro hpk
    exact h (hpk ▸ List.mem_map_of_mem Prod.fst hp)
  simp [updateAssoc, hany]

theorem mem_updateAssoc {α β : Type} [DecidableEq α] {m : List (α × β)} {k k2 : α}
    {v v2 : β} (h : (k2, v2) ∈ updateAssoc m k v) :
    (k2, v2) ∈ m ∨ (k2 = k ∧ v2 = v) := by
  unfold updateAssoc at h
  by_cases hany : m.any (fun p => decide (p.1 = k)) = true
  · rw [if_pos hany] at h
    obtain ⟨p, hp, hpe⟩ := List.mem_map.mp h
    by_cases hpk : p.1 = k
    · rw [if_pos hpk] at hpe
      right
      simp only [Prod.mk.injEq] at hpe
      exact ⟨hpe.1.symm, hpe.2.symm⟩
    · rw [if_neg hpk] at hpe
      exact Or.inl (hpe ▸ hp)
  · rw [if_neg hany] at h
    rcases List.mem_append.mp h with h2 | h2
    · exact Or.inl h2
    · right
      simp only [List.mem_singleton, Prod.mk.injEq] at h2
      exact h2

theorem mem_map_fst_updateAssoc {α β : Type} [DecidableEq α] {m : List (α × β)}
    {k k2 : α} {v : β} (h : k2 ∈ (updateAssoc m k v).map Prod.fst) :
    k2 ∈ m.map Prod.fst ∨ k2 = k := by
  obtain ⟨p, hp, hpe⟩ := List.mem_map.mp h
  obtain ⟨p1, p2⟩ := p
  rcases mem_updateAssoc hp with h2 | h2
  · exact Or.inl (hpe ▸ List.mem_map_of_mem Prod.fst h2)
  · exact Or.inr (hpe ▸ h2.1)

theorem lookupAssoc_mem {α β : Type} [DecidableEq α] :
    ∀ {m : List (α × β)} {k : α} {v : β},
    lookupAssoc m k = some v → (k, v) ∈ m := by
  intro m
  induction m with
  | nil => intro k v h; simp [lookupAssoc] at h
  | cons p t ih =>
    intro k v h
    obtain ⟨a, b⟩ := p
    by_cases hak : a = k
    · subst hak
      rw [lookupAssoc, if_pos rfl] at h
      simp only [Option.some.injEq] at h
      exact h ▸ List.mem_cons_self _ _
    · rw [lookupAssoc, if_neg hak] at h
      exact List.mem_cons_of_mem _ (ih h)

theorem lookupAssoc_of_nodup {α β : Type} [DecidableEq α] :
    ∀ {m : List (α × β)} {k : α} {v : β},
    (k, v) ∈ m → (m.map Prod.fst).Nodup → lookupAssoc m k = some v := by
  intro m
  induction m with
  | nil => intro k v h _; simp at h
  | cons p t ih =>
    intro k v h hnd
    obtain ⟨a, b⟩ := p
    simp only [List.map_cons, List.nodup_cons] at hnd
    rcases List.mem_cons.mp h with h2 | h2
    · simp only [Prod.mk.injEq] at h2
      rw [lookupAssoc, if_pos h2.1.symm]
      rw [h2.2]
    · by_cases hak : a = k
      · subst hak
        exact absurd (List.mem_map_of_mem Prod.fst h2) hnd.1
      · rw [lookupAssoc, if_neg hak]
        exact ih h2 hnd.2

theorem flagStackIf_false (s : List (Location × Bool)) : flagStackIf s false = s := by
  cases s with
  | nil => rfl
  | cons p t => obtain ⟨r, f⟩ := p; simp [flagStackIf]

theorem flagStackIf_or (s : List (Location × Bool)) (a b : Bool) :
    flagStackIf (flagStackIf s a) b = flagStackIf s (a || b) := by
  cases s with
  | nil => rfl
  | cons p t => obtain ⟨r, f⟩ := p; simp [flagStackIf, Bool.or_assoc]

theorem flagStackIf_map_fst (s : List (Location × Bool)) (b : Bool) :
    (flagStackIf s b).map Prod.fst = s.map Prod.fst := by
  cases s with
  | nil => rfl
  | cons p t => obtain ⟨r, f⟩ := p; simp [flagStackIf]

theorem flagInnermost_eq (s : List (Location × Bool)) :
    flagInnermost s = flagStackIf s true := by
  cases s with
  | nil => rfl
  | cons p t => obtain ⟨r, f⟩ := p; simp [flagInnermost, flagStackIf]

/-! ## Claim C9: OutputContextVertex rendering -/

/-- C9: rendering an OutputContextVertex to text returns the mark name of its
location exactly when the location carries no field component and the mark
name passes the safe-identifier check; any successfully rendered text is that
mark name; and when the location carries a field component both the validation
and the rendering fail with an error instead of returning text. -/
theorem c9_output_context_vertex_render (loc : Location) :
    (output_context_vertex_to_match loc = .ok loc.markName ↔
      loc.field = none ∧ validate_safe_string loc.markName = .ok ()) ∧
    (∀ s, output_context_vertex_to_match loc = .ok s → s = loc.markName) ∧
    (∀ f, loc.field = some f →
      output_context_vertex_validate loc = .error "Expected location at a vertex" ∧
      output_context_vertex_to_match loc = .error "Expected location at a vertex") := by
  obtain ⟨mn, fl⟩ := loc
  cases fl with
  | none =>
    cases hv : validate_safe_string mn with
    | ok u =>
      cases u
      refine ⟨?_, ?_, ?_⟩
      · simp [output_context_vertex_to_match, output_context_vertex_validate,
          Location.get_location_name, hv]
      · intro s hs
        simp only [output_context_vertex_to_match, output_context_vertex_validate,
          Location.get_location_name, hv, Except.ok.injEq] at hs
        exact hs.symm
      · intro f hf; simp at hf
    | error e =>
      refine ⟨?_, ?_, ?_⟩
      · simp [output_context_vertex_to_match, output_context_vertex_validate,
          Location.get_location_name, hv]
      · intro s hs
        simp only [output_context_vertex_to_match, output_context_vertex_validate,
          Location.get_location_name, hv] at hs
        exact Except.noConfusion hs
      · intro f hf; simp at hf
  | some f0 =>
    refine ⟨?_, ?_, ?_⟩
    · simp [output_context_vertex_to_match, output_context_vertex_validate,
        Location.get_location_name]
    · intro s hs
      simp only [output_context_vertex_to_match, output_context_vertex_validate,
        Location.get_location_name] at hs
      exact Except.noConfusion hs
    · intro f hf
      exact ⟨rfl, rfl⟩

theorem c9_output_context_vertex_render_witness :
    output_context_vertex_validate { markName := "x", field := some "f" } =
      .error "Expected location at a vertex" ∧
    output_context_vertex_to_match { markName := "x", field := some "f" } =
      .error "Expected location at a vertex" :=
  (c9_output_context_vertex_render { markName := "x", field := some "f" }).2.2 "f" rfl

/-! ## Claim C4: fold extraction error behavior -/

theorem extract_folds_loop_isError : ∀ (bs : List Block)
    (fo : List (FoldScopeLocation × List Block)) (re cu : List Block)
    (st : Option FoldScopeLocation),
    exceptIsError (extract_folds_loop fo re cu st bs) = foldScanViolation st.isSome bs := by
  intro bs
  induction bs with
  | nil => intro fo re cu st; cases st <;> rfl
  | cons b t ih =>
    intro fo re cu st
    cases b
    case Fold l =>
      cases st with
      | none => simp [extract_folds_loop, foldScanViolation, ih]
      | some l2 => simp [extract_folds_loop, foldScanViolation, exceptIsError]
    case Unfold =>
      cases st with
      | none => simp [extract_folds_loop, foldScanViolation, exceptIsError]
      | some l2 => simp [extract_folds_loop, foldScanViolation, ih]
    all_goals (cases st <;> simp [extract_folds_loop, foldScanViolation, ih])

/-- C4 counterexample: the sequence consisting of a single Fold marker has
mismatched Fold/Unfold markers (it is not well nested), yet
extract_folds_from_ir_blocks returns a result instead of raising. -/
theorem c4_counterexample :
    foldsWellNested false [Block.Fold { key := "f" }] = false ∧
    extract_folds_from_ir_blocks [Block.Fold { key := "f" }] = .ok ([], []) :=
  ⟨rfl, rfl⟩

/-- C4 amended: extract_folds_from_ir_blocks raises the structural-invariant
error exactly when the scan encounters a Fold while a fold scope is already
open or an Unfold while no fold scope is open; a trailing Fold left
unterminated at the end of the sequence returns normally instead of raising. -/
theorem c4_fold_mismatch_error_iff (ir_blocks : List Block) :
    exceptIsError (extract_folds_from_ir_blocks ir_blocks) =
      foldScanViolation false ir_blocks := by
  have h := extract_folds_loop_isError ir_blocks [] [] [] none
  simpa [extract_folds_from_ir_blocks] using h

/-! ## Claim C8: merging consecutive filter clauses -/

theorem isFilter_eq_true {b : Block} : isFilter b = true ↔ ∃ p, b = Block.Filter p := by
  cases b <;> simp [isFilter]

theorem merge_filter_step_cons_append (a : Block) (acc tail : List Block) (b : Block) :
    merge_filter_step ((a :: acc) ++ tail) b = merge_filter_step (a :: acc) b ++ tail := by
  cases a <;> cases b <;> simp [merge_filter_step]

theorem merge_filter_step_ne_nil (acc : List Block) (b : Block) (h : acc ≠ []) :
    merge_filter_step acc b ≠ [] := by
  cases acc with
  | nil => exact absurd rfl h
  | cons a t => cases a <;> cases b <;> simp [merge_filter_step]

theorem foldl_merge_filter_step_append : ∀ (l : List Block) (a : Block)
    (acc tail : List Block),
    l.foldl merge_filter_step ((a :: acc) ++ tail) =
      l.foldl merge_filter_step (a :: acc) ++ tail := by
  intro l
  induction l with
  | nil => intro a acc tail; rfl
  | cons b t ih =>
    intro a acc tail
    simp only [List.foldl_cons]
    rw [merge_filter_step_cons_append]
    cases hstep : merge_filter_step (a :: acc) b with
    | nil => exact absurd hstep (merge_filter_step_ne_nil _ _ (by simp))
    | cons a2 acc2 => exact ih a2 acc2 tail

theorem mergeFiltersSpec_nil : mergeFiltersSpec [] = [] := by
  rw [mergeFiltersSpec]

theorem mergeFiltersSpec_single (b : Block) : mergeFiltersSpec [b] = [b] := by
  rw [mergeFiltersSpec]

theorem mergeFiltersSpec_two_filters (p q : Expression) (rest : List Block) :
    mergeFiltersSpec (Block.Filter p :: Block.Filter q :: rest) =
      mergeFiltersSpec (Block.Filter (.BinaryComposition "&&" p q) :: rest) := by
  rw [mergeFiltersSpec]

theorem mergeFiltersSpec_no_merge (b1 b2 : Block) (rest : List Block)
    (h : (isFilter b1 && isFilter b2) = false) :
    mergeFiltersSpec (b1 :: b2 :: rest) = b1 :: mergeFiltersSpec (b2 :: rest) := by
  cases b1 <;> cases b2 <;>
    first
    | (rw [mergeFiltersSpec] <;> simp
       done)
    | simp [isFilter] at h

theorem merge_cons_cons_filter (p q : Expression) (rest : List Block) :
    merge_consecutive_filter_clauses (Block.Filter p :: Block.Filter q :: rest) =
      merge_consecutive_filter_clauses
        (Block.Filter (.BinaryComposition "&&" p q) :: rest) := rfl

theorem merge_cons_cons_no_merge (b1 b2 : Block) (rest : List Block)
    (h : (isFilter b1 && isFilter b2) = false) :
    merge_consecutive_filter_clauses (b1 :: b2 :: rest) =
      b1 :: merge_consecutive_filter_clauses (b2 :: rest) := by
  have hstep : merge_filter_step [b1] b2 = b2 :: [b1] := by
    cases b1 <;> cases b2 <;>
      first
      | rfl
      | simp [isFilter] at h
  show (rest.foldl merge_filter_step (merge_filter_step [b1] b2)).reverse = _
  rw [hstep]
  have h2 : (b2 :: [b1]) = (b2 :: []) ++ [b1] := rfl
  rw [h2, foldl_merge_filter_step_append]
  simp [merge_consecutive_filter_clauses]

theorem merge_eq_mergeFiltersSpec : ∀ (n : Nat) (bs : List Block), bs.length ≤ n →
    merge_consecutive_filter_clauses bs = mergeFiltersSpec bs := by
  intro n
  induction n with
  | zero =>
    intro bs h
    have hb : bs = [] := List.eq_nil_of_length_eq_zero (Nat.le_zero.mp h)
    subst hb
    rw [mergeFiltersSpec_nil]
    rfl
  | succ n ih =>
    intro bs h
    cases bs with
    | nil =>
      rw [mergeFiltersSpec_nil]
      rfl
    | cons b1 t1 =>
      cases t1 with
      | nil =>
        rw [mergeFiltersSpec_single]
        rfl
      | cons b2 rest =>
        cases hf : (isFilter b1 && isFilter b2) with
        | true =>
          rw [Bool.and_eq_true] at hf
          obtain ⟨p, rfl⟩ := isFilter_eq_true.mp hf.1
          obtain ⟨q, rfl⟩ := isFilter_eq_true.mp hf.2
          rw [merge_cons_cons_filter, mergeFiltersSpec_two_filters]
          refine ih _ ?_
          simp only [List.length_cons] at h ⊢
          omega
        | false =>
          rw [merge_cons_cons_no_merge b1 b2 rest hf,
            mergeFiltersSpec_no_merge b1 b2 rest hf]
          rw [ih _ (by simp only [List.length_cons] at h ⊢; omega)]

/-- C8: merge_consecutive_filter_clauses collapses every maximal run of
consecutive Filter blocks into a single Filter whose predicate is the
left-to-right AND of the run's predicates, leaves all other blocks and
non-adjacent Filters untouched in their order, returns empty input unchanged,
and in particular three consecutive Filters with predicates P, Q, R merge to
((P AND Q) AND R). -/
theorem c8_merge_consecutive_filter_clauses (ir_blocks : List Block)
    (P Q R : Expression) :
    merge_consecutive_filter_clauses ir_blocks = mergeFiltersSpec ir_blocks ∧
    merge_consecutive_filter_clauses ([] : List Block) = [] ∧
    merge_consecutive_filter_clauses [Block.Filter P, Block.Filter Q, Block.Filter R] =
      [Block.Filter (.BinaryComposition "&&" (.BinaryComposition "&&" P Q) R)] :=
  ⟨merge_eq_mergeFiltersSpec ir_blocks.length ir_blocks le_rfl, rfl, rfl⟩

/-! ## Claim C1: lowering of ContextFieldExistence -/

theorem visit_regular_eq_replace (query_metadata_table : Location → String) :
    ∀ (e : Expression),
    e.visit_and_update (regular_visitor_fn query_metadata_table) =
      replaceExistence (fun l t => .ContextField l t) query_metadata_table e := by
  intro e
  induction e
  case BinaryComposition op l r ihl ihr =>
    simp [Expression.visit_and_update, regular_visitor_fn, replaceExistence, ihl, ihr]
  all_goals rfl

theorem visit_construct_eq_replace (query_metadata_table : Location → String) :
    ∀ (e : Expression),
    e.visit_and_update (construct_result_visitor_fn query_metadata_table) =
      replaceExistence (fun l t => .OutputContextVertex l t) query_metadata_table e := by
  intro e
  induction e
  case BinaryComposition op l r ihl ihr =>
    simp [Expression.visit_and_update, construct_result_visitor_fn, replaceExistence,
      ihl, ihr]
  all_goals rfl

theorem replaceExistence_no_cfe (mk : Location → String → Expression)
    (query_metadata_table : Location → String)
    (hmk : ∀ l t, (mk l t).hasContextFieldExistence = false) :
    ∀ (e : Expression),
    (replaceExistence mk query_metadata_table e).hasContextFieldExistence = false := by
  intro e
  induction e
  case BinaryComposition op l r ihl ihr =>
    simp [replaceExistence, Expression.hasContextFieldExistence, ihl, ihr]
  case ContextFieldExistence loc =>
    simp [replaceExistence, Expression.hasContextFieldExistence, hmk]
  all_goals rfl

theorem lower_block_eq (query_metadata_table : Location → String) (b : Block) :
    (match b with
    | Block.ConstructResult _ =>
        b.visit_and_update_expressions (construct_result_visitor_fn query_metadata_table)
    | _ => b.visit_and_update_expressions (regular_visitor_fn query_metadata_table)) =
      replaceExistenceInBlock query_metadata_table b := by
  cases b <;>
    simp [Block.visit_and_update_expressions, replaceExistenceInBlock,
      visit_construct_eq_replace, visit_regular_eq_replace]

theorem lower_eq_map (ir_blocks : List Block) (query_metadata_table : Location → String) :
    lower_context_field_existence ir_blocks query_metadata_table =
      ir_blocks.map (replaceExistenceInBlock query_metadata_table) := by
  unfold lower_context_field_existence
  congr 1
  funext b
  exact lower_block_eq query_metadata_table b

theorem replaceExistenceInBlock_no_cfe (query_metadata_table : Location → String)
    (b : Block) :
    (replaceExistenceInBlock query_metadata_table b).hasContextFieldExistence = false := by
  cases b
  case Filter p =>
    simp [replaceExistenceInBlock, Block.hasContextFieldExistence,
      replaceExistence_no_cfe (fun l t => Expression.ContextField l t)
        query_metadata_table (fun l t => rfl)]
  case ConstructResult fields =>
    simp only [replaceExistenceInBlock, Block.hasContextFieldExistence, List.any_map,
      List.any_eq_false]
    intro kv _
    simp [Function.comp,
      replaceExistence_no_cfe (fun l t => Expression.OutputContextVertex l t)
        query_metadata_table (fun l t => rfl)]
  all_goals rfl

/-! ## Claims C5 and C6: the boolean-comparison optimizer -/

theorem operator_inverse_cases {op o : String} (h : operator_inverse op = some o) :
    (op = "=" ∧ o = "!=") ∨ (op = "!=" ∧ o = "=") := by
  unfold operator_inverse at h
  split at h
  · exact Or.inl ⟨rfl, (Option.some.injEq _ _ ▸ h).symm⟩
  · exact Or.inr ⟨rfl, (Option.some.injEq _ _ ▸ h).symm⟩
  · exact Option.noConfusion h

/-- C5 counterexample: with the equality operator, the TrueLiteral identity on
the left, and an inner composition whose operator is the conjunction operator
(not an equality or inequality), the claim predicts that the expression is
returned unchanged, but optimize_visitor_fn replaces it with the inner
composition. -/
theorem c5_counterexample :
    optimize_visitor_fn (Expression.BinaryComposition "=" Expression.TrueLiteral
        (Expression.BinaryComposition "&&" Expression.NullLiteral Expression.NullLiteral)) =
      Expression.BinaryComposition "&&" Expression.NullLiteral Expression.NullLiteral ∧
    Expression.BinaryComposition "&&" Expression.NullLiteral Expression.NullLiteral ≠
      Expression.BinaryComposition "=" Expression.TrueLiteral
        (Expression.BinaryComposition "&&" Expression.NullLiteral Expression.NullLiteral) := by
  exact ⟨by decide, by decide⟩

/-- C5 amended: for every BinaryComposition with operator equality or
inequality, the expression is returned unchanged when (i) neither side is a
BinaryComposition, or (ii) neither side is the TrueLiteral or FalseLiteral
boolean literal, or (iii) one side is the inverse literal for the operator and
the other side is a BinaryComposition whose operator has no known inverse (is
neither equality nor inequality).  When one side is the identity literal and
the other side is a composition, the inner composition is returned even if its
operator has no known inverse, so the operator-unknown condition only forces
the unchanged result in the inverse-literal case. -/
theorem c5_optimizer_unchanged_cases (operator : String) (left right : Expression)
    (hop : operator = "=" ∨ operator = "!=") :
    ((left.isBinaryComposition = false ∧ right.isBinaryComposition = false) →
      optimize_visitor_fn (.BinaryComposition operator left right) =
        .BinaryComposition operator left right) ∧
    ((left ≠ .TrueLiteral ∧ left ≠ .FalseLiteral ∧ right ≠ .TrueLiteral ∧
        right ≠ .FalseLiteral) →
      optimize_visitor_fn (.BinaryComposition operator left right) =
        .BinaryComposition operator left right) ∧
    (∀ op2 a b, operator_inverse op2 = none →
      optimize_visitor_fn (.BinaryComposition operator (inverseLiteralFor operator)
          (.BinaryComposition op2 a b)) =
        .BinaryComposition operator (inverseLiteralFor operator)
          (.BinaryComposition op2 a b) ∧
      optimize_visitor_fn (.BinaryComposition operator (.BinaryComposition op2 a b)
          (inverseLiteralFor operator)) =
        .BinaryComposition operator (.BinaryComposition op2 a b)
          (inverseLiteralFor operator)) := by
  rcases hop with hop | hop <;> subst hop <;>
    refine ⟨?_, ?_, ?_⟩
  · rintro ⟨h1, h2⟩
    simp [optimize_visitor_fn, h1, h2]
  · rintro ⟨h1, h2, h3, h4⟩
    simp only [optimize_visitor_fn]
    by_cases hbc : (!left.isBinaryComposition && !right.isBinaryComposition) = true
    · rw [if_pos hbc]
    · rw [if_neg hbc]
      simp [h1, h2, h3, h4]
  · intro op2 a b hinv
    constructor
    · simp [optimize_visitor_fn, inverseLiteralFor, hinv, Expression.isBinaryComposition]
    · simp [optimize_visitor_fn, inverseLiteralFor, hinv, Expression.isBinaryComposition]
  · rintro ⟨h1, h2⟩
    simp [optimize_visitor_fn, h1, h2]
  · rintro ⟨h1, h2, h3, h4⟩
    simp only [optimize_visitor_fn]
    by_cases hbc : (!left.isBinaryComposition && !right.isBinaryComposition) = true
    · rw [if_pos hbc]
    · rw [if_neg hbc]
      simp [h1, h2, h3, h4]
  · intro op2 a b hinv
    constructor
    · simp [optimize_visitor_fn, inverseLiteralFor, hinv, Expression.isBinaryComposition]
    · simp [optimize_visitor_fn, inverseLiteralFor, hinv, Expression.isBinaryComposition]

theorem c5_optimizer_unchanged_cases_witness :
    (("=" : String) = "=" ∨ ("=" : String) = "!=") ∧
    optimize_visitor_fn (.BinaryComposition "=" .NullLiteral .NullLiteral) =
      .BinaryComposition "=" .NullLiteral .NullLiteral :=
  ⟨Or.inl rfl,
    (c5_optimizer_unchanged_cases "=" .NullLiteral .NullLiteral (Or.inl rfl)).1
      ⟨rfl, rfl⟩⟩

/-- C6: in the boolean-comparison optimizer, with the equality operator
(respectively inequality), a side equal to the identity literal TrueLiteral
(respectively FalseLiteral) paired with a composition on the other side yields
that inner composition unchanged; a side equal to the inverse literal
FalseLiteral (respectively TrueLiteral) paired with a composition whose
operator is equality or inequality yields the inner composition with its
operator inverted and children unchanged; in particular the two round-trip
examples rewrite as stated. -/
theorem c6_optimizer_rewrites (a b X : Expression) (op : String) :
    (optimize_visitor_fn (.BinaryComposition "=" .TrueLiteral
        (.BinaryComposition op a b)) = .BinaryComposition op a b) ∧
    (optimize_visitor_fn (.BinaryComposition "=" (.BinaryComposition op a b)
        .TrueLiteral) = .BinaryComposition op a b) ∧
    (optimize_visitor_fn (.BinaryComposition "!=" .FalseLiteral
        (.BinaryComposition op a b)) = .BinaryComposition op a b) ∧
    (optimize_visitor_fn (.BinaryComposition "!=" (.BinaryComposition op a b)
        .FalseLiteral) = .BinaryComposition op a b) ∧
    (∀ opInv, operator_inverse op = some opInv →
      (optimize_visitor_fn (.BinaryComposition "=" .FalseLiteral
          (.BinaryComposition op a b)) = .BinaryComposition opInv a b) ∧
      (optimize_visitor_fn (.BinaryComposition "=" (.BinaryComposition op a b)
          .FalseLiteral) = .BinaryComposition opInv a b) ∧
      (optimize_visitor_fn (.BinaryComposition "!=" .TrueLiteral
          (.BinaryComposition op a b)) = .BinaryComposition opInv a b) ∧
      (optimize_visitor_fn (.BinaryComposition "!=" (.BinaryComposition op a b)
          .TrueLiteral) = .BinaryComposition opInv a b)) ∧
    (optimize_visitor_fn (.BinaryComposition "=" (.BinaryComposition "!=" X .NullLiteral)
        .FalseLiteral) = .BinaryComposition "=" X .NullLiteral) ∧
    (optimize_visitor_fn (.BinaryComposition "!=" (.BinaryComposition "=" X .NullLiteral)
        .TrueLiteral) = .BinaryComposition "!=" X .NullLiteral) := by
  refine ⟨?_, ?_, ?_, ?_, ?_, ?_, ?_⟩
  · simp [optimize_visitor_fn, Expression.isBinaryComposition]
  · simp [optimize_visitor_fn, Expression.isBinaryComposition]
  · simp [optimize_visitor_fn, Expression.isBinaryComposition]
  · simp [optimize_visitor_fn, Expression.isBinaryComposition]
  · intro opInv hinv
    rcases operator_inverse_cases hinv with ⟨h1, h2⟩ | ⟨h1, h2⟩ <;> subst h1 <;> subst h2 <;>
      exact ⟨by simp [optimize_visitor_fn, operator_inverse, Expression.isBinaryComposition],
        by simp [optimize_visitor_fn, operator_inverse, Expression.isBinaryComposition],
        by simp [optimize_visitor_fn, operator_inverse, Expression.isBinaryComposition],
        by simp [optimize_visitor_fn, operator_inverse, Expression.isBinaryComposition]⟩
  · simp [optimize_visitor_fn, operator_inverse, Expression.isBinaryComposition]
  · simp [optimize_visitor_fn, operator_inverse, Expression.isBinaryComposition]

theorem c6_optimizer_rewrites_witness :
    operator_inverse "!=" = some "=" ∧
    optimize_visitor_fn (.BinaryComposition "=" .FalseLiteral
        (.BinaryComposition "!=" .NullLiteral .NullLiteral)) =
      .BinaryComposition "=" .NullLiteral .NullLiteral :=
  ⟨rfl,
    ((c6_optimizer_rewrites Expression.NullLiteral Expression.NullLiteral
        Expression.NullLiteral "!=").2.2.2.2.1 "=" rfl).1⟩

/-! ## Claim C7: the fold extraction partition and round trip -/

theorem foldsWellNested_skip (fl : Bool) (b : Block) (t : List Block)
    (hf : ∀ l, b ≠ Block.Fold l) (hu : b ≠ Block.Unfold) :
    foldsWellNested fl (b :: t) = foldsWellNested fl t := by
  cases b <;>
    first
    | exact absurd rfl (hf _)
    | exact absurd rfl hu
    | (cases fl <;> rfl)

theorem foldLocations_skip (b : Block) (t : List Block)
    (hf : ∀ l, b ≠ Block.Fold l) :
    foldLocations (b :: t) = foldLocations t := by
  cases b <;>
    first
    | exact absurd rfl (hf _)
    | simp [foldLocations]

theorem foldLocations_fold (loc : FoldScopeLocation) (t : List Block) :
    foldLocations (Block.Fold loc :: t) = loc :: foldLocations t := by
  simp [foldLocations]

theorem foldLocations_append (l1 l2 : List Block) :
    foldLocations (l1 ++ l2) = foldLocations l1 ++ foldLocations l2 := by
  simp [foldLocations]

theorem foldLocations_of_clean (body : List Block)
    (hall : body.all (fun b => !isFold b && !isUnfold b) = true) :
    foldLocations body = [] := by
  rw [foldLocations, List.filterMap_eq_nil]
  intro b hb
  have := (List.all_eq_true.mp hall) b hb
  cases b <;> simp [isFold] at this ⊢

theorem foldsWellNested_open_decomp : ∀ (rest : List Block),
    foldsWellNested true rest = true →
    ∃ body rest2, rest = body ++ Block.Unfold :: rest2 ∧
      body.all (fun b => !isFold b && !isUnfold b) = true ∧
      foldsWellNested false rest2 = true := by
  intro rest
  induction rest with
  | nil => intro h; simp [foldsWellNested] at h
  | cons b t ih =>
    intro h
    cases b
    case Fold l => simp [foldsWellNested] at h
    case Unfold =>
      refine ⟨[], t, rfl, rfl, ?_⟩
      simpa [foldsWellNested] using h
    all_goals
      obtain ⟨body, rest2, heq, hall, hwn⟩ := ih (by simpa [foldsWellNested] using h)
      exact ⟨_ :: body, rest2, by rw [heq]; rfl,
        by simp only [List.all_cons, hall, Bool.and_true]; rfl, hwn⟩

theorem extract_folds_loop_skip (fo : List (FoldScopeLocation × List Block))
    (re cu : List Block) (st : Option FoldScopeLocation) (b : Block) (t : List Block)
    (hf : ∀ l, b ≠ Block.Fold l) (hu : b ≠ Block.Unfold) :
    extract_folds_loop fo re cu st (b :: t) =
      (match st with
      | some _ => extract_folds_loop fo re (cu ++ [b]) st t
      | none => extract_folds_loop fo (re ++ [b]) cu st t) := by
  cases b <;>
    first
    | exact absurd rfl (hf _)
    | exact absurd rfl hu
    | (cases st <;> rfl)

theorem extract_folds_loop_body : ∀ (body : List Block)
    (fo : List (FoldScopeLocation × List Block)) (re cu rest2 : List Block)
    (loc : FoldScopeLocation),
    body.all (fun b => !isFold b && !isUnfold b) = true →
    extract_folds_loop fo re cu (some loc) (body ++ Block.Unfold :: rest2) =
      extract_folds_loop (updateAssoc fo loc (cu ++ body)) re [] none rest2 := by
  intro body
  induction body with
  | nil =>
    intro fo re cu rest2 loc _
    simp [extract_folds_loop]
  | cons b t ih =>
    intro fo re cu rest2 loc hall
    simp only [List.all_cons, Bool.and_eq_true] at hall
    have hf : ∀ l, b ≠ Block.Fold l := by
      intro l hb
      subst hb
      simp [isFold] at hall
    have hu : b ≠ Block.Unfold := by
      intro hb
      subst hb
      simp [isUnfold] at hall
    rw [List.cons_append, extract_folds_loop_skip fo re cu (some loc) b _ hf hu]
    show extract_folds_loop fo re (cu ++ [b]) (some loc) (t ++ Block.Unfold :: rest2) = _
    rw [ih fo re (cu ++ [b]) rest2 loc hall.2]
    rw [List.append_assoc]
    rfl

theorem splitFolds_nil : splitFolds [] = some ([], []) := by
  rw [splitFolds]

theorem splitFolds_unfold (rest : List Block) :
    splitFolds (Block.Unfold :: rest) = none := by
  rw [splitFolds]

theorem splitFolds_cons_skip (b : Block) (rest : List Block)
    (hf : ∀ l, b ≠ Block.Fold l) (hu : b ≠ Block.Unfold) :
    splitFolds (b :: rest) = (splitFolds rest).map (fun p => (p.1, b :: p.2)) := by
  cases b
  case Fold l => exact absurd rfl (hf l)
  case Unfold => exact absurd rfl hu
  all_goals (rw [splitFolds] <;> simp)

theorem splitFolds_fold (loc : FoldScopeLocation) (rest body rest2 : List Block)
    (hs : splitAtUnfold rest = some (body, rest2)) :
    splitFolds (Block.Fold loc :: rest) =
      (splitFolds rest2).map (fun p => ((loc, body) :: p.1, p.2)) := by
  rw [splitFolds]
  split
  · rename_i heq; rw [heq] at hs; exact Option.noConfusion hs
  · rename_i b2 r2 heq
    rw [heq] at hs
    simp only [Option.some.injEq, Prod.mk.injEq] at hs
    rw [hs.1, hs.2]

theorem extract_folds_loop_wellNested : ∀ (n : Nat) (ir : List Block), ir.length ≤ n →
    ∀ (fo : List (FoldScopeLocation × List Block)) (re : List Block),
    foldsWellNested false ir = true →
    (fo.map Prod.fst ++ foldLocations ir).Nodup →
    ∃ fs rem, splitFolds ir = some (fs, rem) ∧
      extract_folds_loop fo re [] none ir = .ok (fo ++ fs, re ++ rem) := by
  intro n
  induction n with
  | zero =>
    intro ir hlen fo re _ _
    have hnil : ir = [] := List.eq_nil_of_length_eq_zero (Nat.le_zero.mp hlen)
    subst hnil
    exact ⟨[], [], splitFolds_nil, by simp [extract_folds_loop]⟩
  | succ n ih =>
    intro ir hlen fo re hwn hnd
    cases ir with
    | nil => exact ⟨[], [], splitFolds_nil, by simp [extract_folds_loop]⟩
    | cons b t =>
      by_cases hfold : ∃ l, b = Block.Fold l
      · obtain ⟨loc, rfl⟩ := hfold
        have hwn1 : foldsWellNested true t = true := by
          simpa [foldsWellNested] using hwn
        obtain ⟨body, rest2, heq, hall, hwn2⟩ := foldsWellNested_open_decomp t hwn1
        subst heq
        have hclean : body.all (fun x => !isUnfold x) = true := by
          rw [List.all_eq_true] at hall ⊢
          intro x hx
          have := hall x hx
          simp only [Bool.and_eq_true] at this
          exact this.2
        have hsplit : splitAtUnfold (body ++ Block.Unfold :: rest2) = some (body, rest2) :=
          splitAtUnfold_no_unfold body rest2 hclean
        have hlocs : foldLocations (Block.Fold loc :: (body ++ Block.Unfold :: rest2)) =
            loc :: foldLocations rest2 := by
          rw [foldLocations_fold, foldLocations_append]
          rw [foldLocations_of_clean body hall]
          rw [foldLocations_skip Block.Unfold rest2 (by intro l h; exact Block.noConfusion h)]
          rfl
        rw [hlocs] at hnd
        have hnotmem : loc ∉ fo.map Prod.fst := by
          rw [List.nodup_append] at hnd
          intro hmem
          exact hnd.2.2 hmem (List.mem_cons_self _ _)
        have hnd2 : ((fo ++ [(loc, body)]).map Prod.fst ++ foldLocations rest2).Nodup := by
          rw [List.map_append]
          have : fo.map Prod.fst ++ loc :: foldLocations rest2 =
              (fo.map Prod.fst ++ [(loc, body)].map Prod.fst) ++ foldLocations rest2 := by
            simp
          rw [← this]
          exact hnd
        have hlen2 : rest2.length ≤ n := by
          simp only [List.length_cons, List.length_append] at hlen
          omega
        obtain ⟨fs2, rem2, hsp2, hlp2⟩ := ih rest2 hlen2 (fo ++ [(loc, body)]) re hwn2 hnd2
        refine ⟨(loc, body) :: fs2, rem2, ?_, ?_⟩
        · rw [splitFolds_fold loc _ body rest2 hsplit, hsp2]
          rfl
        · have hstep : extract_folds_loop fo re [] none
              (Block.Fold loc :: (body ++ Block.Unfold :: rest2)) =
              extract_folds_loop fo re [] (some loc) (body ++ Block.Unfold :: rest2) := rfl
          rw [hstep, extract_folds_loop_body body fo re [] rest2 loc hall]
          rw [show ([] : List Block) ++ body = body from rfl]
          rw [updateAssoc_not_mem fo loc body hnotmem, hlp2]
          simp
      · by_cases hunf : b = Block.Unfold
        · subst hunf
          simp [foldsWellNested] at hwn
        · have hf : ∀ l, b ≠ Block.Fold l := by
            intro l hb
            exact hfold ⟨l, hb⟩
          have hwn2 : foldsWellNested false t = true := by
            rw [foldsWellNested_skip false b t hf hunf] at hwn
            exact hwn
          have hnd2 : (fo.map Prod.fst ++ foldLocations t).Nodup := by
            rw [foldLocations_skip b t hf] at hnd
            exact hnd
          have hlen2 : t.length ≤ n := by
            simp only [List.length_cons] at hlen
            omega
          obtain ⟨fs, rem, hsp, hlp⟩ := ih t hlen2 fo (re ++ [b]) hwn2 hnd2
          refine ⟨fs, b :: rem, ?_, ?_⟩
          · rw [splitFolds_cons_skip b t hf hunf, hsp]
            rfl
          · rw [extract_folds_loop_skip fo re [] none b t hf hunf]
            show extract_folds_loop fo (re ++ [b]) [] none t = _
            rw [hlp]
            simp

theorem splitFolds_keys : ∀ (n : Nat) (ir : List Block), ir.length ≤ n →
    foldsWellNested false ir = true →
    ∀ (fs : List (FoldScopeLocation × List Block)) (rem : List Block),
    splitFolds ir = some (fs, rem) →
    fs.map Prod.fst = foldLocations ir := by
  intro n
  induction n with
  | zero =>
    intro ir hlen _ fs rem hsp
    have hnil : ir = [] := List.eq_nil_of_length_eq_zero (Nat.le_zero.mp hlen)
    subst hnil
    rw [splitFolds_nil] at hsp
    simp only [Option.some.injEq, Prod.mk.injEq] at hsp
    rw [← hsp.1]
    rfl
  | succ n ih =>
    intro ir hlen hwn fs rem hsp
    cases ir with
    | nil =>
      rw [splitFolds_nil] at hsp
      simp only [Option.some.injEq, Prod.mk.injEq] at hsp
      rw [← hsp.1]
      rfl
    | cons b t =>
      by_cases hfold : ∃ l, b = Block.Fold l
      · obtain ⟨loc, rfl⟩ := hfold
        have hwn1 : foldsWellNested true t = true := by
          simpa [foldsWellNested] using hwn
        obtain ⟨body, rest2, heq, hall, hwn2⟩ := foldsWellNested_open_decomp t hwn1
        subst heq
        have hclean : body.all (fun x => !isUnfold x) = true := by
          rw [List.all_eq_true] at hall ⊢
          intro x hx
          have := hall x hx
          simp only [Bool.and_eq_true] at this
          exact this.2
        have hsplit : splitAtUnfold (body ++ Block.Unfold :: rest2) = some (body, rest2) :=
          splitAtUnfold_no_unfold body rest2 hclean
        rw [splitFolds_fold loc _ body rest2 hsplit] at hsp
        cases hsp2 : splitFolds rest2 with
        | none => rw [hsp2] at hsp; exact Option.noConfusion hsp
        | some p =>
          rw [hsp2] at hsp
          simp only [Option.map_some', Option.some.injEq, Prod.mk.injEq] at hsp
          have hlen2 : rest2.length ≤ n := by
            simp only [List.length_cons, List.length_append] at hlen
            omega
          have hkeys := ih rest2 hlen2 hwn2 p.1 p.2 (by rw [hsp2])
          rw [← hsp.1, foldLocations_fold, foldLocations_append,
            foldLocations_of_clean body hall,
            foldLocations_skip Block.Unfold rest2 (by intro l h; exact Block.noConfusion h)]
          simp [hkeys]
      · by_cases hunf : b = Block.Unfold
        · subst hunf
          simp [foldsWellNested] at hwn
        · have hf : ∀ l, b ≠ Block.Fold l := by
            intro l hb
            exact hfold ⟨l, hb⟩
          have hwn2 : foldsWellNested false t = true := by
            rw [foldsWellNested_skip false b t hf hunf] at hwn
            exact hwn
          rw [splitFolds_cons_skip b t hf hunf] at hsp
          cases hsp2 : splitFolds t with
          | none => rw [hsp2] at hsp; exact Option.noConfusion hsp
          | some p =>
            rw [hsp2] at hsp
            simp only [Option.map_some', Option.some.injEq, Prod.mk.injEq] at hsp
            have hlen2 : t.length ≤ n := by
              simp only [List.length_cons] at hlen
              omega
            have hkeys := ih t hlen2 hwn2 p.1 p.2 (by rw [hsp2])
            rw [← hsp.1, foldLocations_skip b t hf]
            exact hkeys

theorem resplice_nil (fs : List (FoldScopeLocation × List Block)) :
    resplice fs [] = [] := by
  rw [resplice]

theorem resplice_skip (fs : List (FoldScopeLocation × List Block)) (b : Block)
    (rest : List Block) (hf : ∀ l, b ≠ Block.Fold l) :
    resplice fs (b :: rest) = b :: resplice fs rest := by
  cases b <;>
    first
    | exact absurd rfl (hf _)
    | (rw [resplice] <;> simp)

theorem resplice_fold (fs : List (FoldScopeLocation × List Block))
    (loc : FoldScopeLocation) (rest body rest2 : List Block)
    (hs : splitAtUnfold rest = some (body, rest2)) :
    resplice fs (Block.Fold loc :: rest) =
      Block.Fold loc :: ((lookupAssoc fs loc).getD [] ++
        Block.Unfold :: resplice fs rest2) := by
  rw [resplice]
  split
  · rename_i heq; rw [heq] at hs; exact Option.noConfusion hs
  · rename_i b2 r2 heq
    rw [heq] at hs
    simp only [Option.some.injEq, Prod.mk.injEq] at hs
    rw [hs.2]

theorem resplice_reconstructs : ∀ (n : Nat) (ir : List Block), ir.length ≤ n →
    ∀ (fs fs0 : List (FoldScopeLocation × List Block)) (rem : List Block),
    foldsWellNested false ir = true →
    splitFolds ir = some (fs0, rem) →
    (∀ p ∈ fs0, lookupAssoc fs p.1 = some p.2) →
    resplice fs ir = ir := by
  intro n
  induction n with
  | zero =>
    intro ir hlen fs fs0 rem _ _ _
    have hnil : ir = [] := List.eq_nil_of_length_eq_zero (Nat.le_zero.mp hlen)
    subst hnil
    exact resplice_nil fs
  | succ n ih =>
    intro ir hlen fs fs0 rem hwn hsp hlk
    cases ir with
    | nil => exact resplice_nil fs
    | cons b t =>
      by_cases hfold : ∃ l, b = Block.Fold l
      · obtain ⟨loc, rfl⟩ := hfold
        have hwn1 : foldsWellNested true t = true := by
          simpa [foldsWellNested] using hwn
        obtain ⟨body, rest2, heq, hall, hwn2⟩ := foldsWellNested_open_decomp t hwn1
        subst heq
        have hclean : body.all (fun x => !isUnfold x) = true := by
          rw [List.all_eq_true] at hall ⊢
          intro x hx
          have := hall x hx
          simp only [Bool.and_eq_true] at this
          exact this.2
        have hsplit : splitAtUnfold (body ++ Block.Unfold :: rest2) = some (body, rest2) :=
          splitAtUnfold_no_unfold body rest2 hclean
        rw [splitFolds_fold loc _ body rest2 hsplit] at hsp
        cases hsp2 : splitFolds rest2 with
        | none => rw [hsp2] at hsp; exact Option.noConfusion hsp
        | some p =>
          rw [hsp2] at hsp
          simp only [Option.map_some', Option.some.injEq, Prod.mk.injEq] at hsp
          have hmem : ((loc, body) : FoldScopeLocation × List Block) ∈ fs0 := by
            rw [← hsp.1]
            exact List.mem_cons_self _ _
          have hlook := hlk (loc, body) hmem
          rw [resplice_fold fs loc _ body rest2 hsplit, hlook]
          have hlen2 : rest2.length ≤ n := by
            simp only [List.length_cons, List.length_append] at hlen
            omega
          have hre := ih rest2 hlen2 fs p.1 p.2 hwn2 (by rw [hsp2]) (by
            intro q hq
            refine hlk q ?_
            rw [← hsp.1]
            exact List.mem_cons_of_mem _ hq)
          rw [hre]
          rfl
      · have hf : ∀ l, b ≠ Block.Fold l := by
          intro l hb
          exact hfold ⟨l, hb⟩
        by_cases hunf : b = Block.Unfold
        · subst hunf
          simp [foldsWellNested] at hwn
        · have hwn2 : foldsWellNested false t = true := by
            rw [foldsWellNested_skip false b t hf hunf] at hwn
            exact hwn
          rw [splitFolds_cons_skip b t hf hunf] at hsp
          cases hsp2 : splitFolds t with
          | none => rw [hsp2] at hsp; exact Option.noConfusion hsp
          | some p =>
            rw [hsp2] at hsp
            simp only [Option.map_some', Option.some.injEq, Prod.mk.injEq] at hsp
            have hlen2 : t.length ≤ n := by
              simp only [List.length_cons] at hlen
              omega
            have hre := ih t hlen2 fs p.1 p.2 hwn2 (by rw [hsp2]) (by
              intro q hq
              refine hlk q ?_
              rw [← hsp.1]
              exact hq)
            rw [resplice_skip fs b t hf, hre]

/-- C7: for every well-nested instruction sequence with distinct fold scope
locations, extract_folds_from_ir_blocks partitions it into the mapping from
each FoldScopeLocation to the ordered instructions strictly between its Fold
and Unfold markers (markers excluded) and the ordered remaining instructions
outside all fold scopes, and re-splicing each extracted fold's instructions
back between fresh Fold/Unfold markers at its original position reproduces
the original sequence. -/
theorem c7_extract_folds_round_trip (ir_blocks : List Block)
    (hwn : foldsWellNested false ir_blocks = true)
    (hnd : (foldLocations ir_blocks).Nodup) :
    ∃ fs rem, extract_folds_from_ir_blocks ir_blocks = .ok (fs, rem) ∧
      splitFolds ir_blocks = some (fs, rem) ∧
      fs.map Prod.fst = foldLocations ir_blocks ∧
      resplice fs ir_blocks = ir_blocks := by
  obtain ⟨fs, rem, hsp, hlp⟩ := extract_folds_loop_wellNested ir_blocks.length ir_blocks
    le_rfl [] [] hwn (by simpa using hnd)
  refine ⟨fs, rem, ?_, hsp, ?_, ?_⟩
  · rw [extract_folds_from_ir_blocks, hlp]
    simp
  · exact splitFolds_keys ir_blocks.length ir_blocks le_rfl hwn fs rem hsp
  · refine resplice_reconstructs ir_blocks.length ir_blocks le_rfl fs fs rem hwn hsp ?_
    intro p hp
    have hkeys := splitFolds_keys ir_blocks.length ir_blocks le_rfl hwn fs rem hsp
    have hndk : (fs.map Prod.fst).Nodup := by
      rw [hkeys]
      exact hnd
    exact lookupAssoc_of_nodup (by exact hp) hndk

theorem c7_extract_folds_round_trip_witness :
    ∃ fs rem,
      extract_folds_from_ir_blocks
        [Block.MarkLocation { markName := "A", field := none },
         Block.Fold { key := "f" }, Block.Filter Expression.TrueLiteral, Block.Unfold,
         Block.MarkLocation { markName := "B", field := none }] = .ok (fs, rem) ∧
      splitFolds
        [Block.MarkLocation { markName := "A", field := none },
         Block.Fold { key := "f" }, Block.Filter Expression.TrueLiteral, Block.Unfold,
         Block.MarkLocation { markName := "B", field := none }] = some (fs, rem) ∧
      fs.map Prod.fst = foldLocations
        [Block.MarkLocation { markName := "A", field := none },
         Block.Fold { key := "f" }, Block.Filter Expression.TrueLiteral, Block.Unfold,
         Block.MarkLocation { markName := "B", field := none }] ∧
      resplice fs
        [Block.MarkLocation { markName := "A", field := none },
         Block.Fold { key := "f" }, Block.Filter Expression.TrueLiteral, Block.Unfold,
         Block.MarkLocation { markName := "B", field := none }] =
        [Block.MarkLocation { markName := "A", field := none },
         Block.Fold { key := "f" }, Block.Filter Expression.TrueLiteral, Block.Unfold,
         Block.MarkLocation { markName := "B", field := none }] :=
  c7_extract_folds_round_trip _ (by decide) (by decide)

/-! ## Claims C2 and C10: the optional-scope root analysis -/

theorem optStep_frozen (s : OptState) (b : Block) (msg : String)
    (he : s.error = some msg) : optStep s b = s := by
  simp [optStep, he]

theorem foldl_optStep_frozen : ∀ (bs : List Block) (s : OptState) (msg : String),
    s.error = some msg → bs.foldl optStep s = s := by
  intro bs
  induction bs with
  | nil => intro s msg _; rfl
  | cons b t ih =>
    intro s msg he
    rw [List.foldl_cons, optStep_frozen s b msg he]
    exact ih s msg he

theorem stackRoots_isEmpty (st : List (Location × Bool)) :
    ((st.map Prod.fst).reverse).isEmpty = st.isEmpty := by
  cases st with
  | nil => rfl
  | cons p t =>
    have h1 : (List.map Prod.fst t).reverse ++ [p.1] ≠ [] := by simp
    simp only [List.map_cons, List.reverse_cons]
    cases h2 : (List.map Prod.fst t).reverse ++ [p.1] with
    | nil => exact absurd h2 h1
    | cons a l => simp [List.isEmpty]

theorem optStep_mark (c : List Location) (m : List (Location × List Location))
    (stk : List (Location × Bool)) (pr : Option Location) (l : Location) :
    optStep ⟨c, m, stk, pr, none⟩ (Block.MarkLocation l) =
      ⟨c,
        (if stk.isEmpty then m
         else updateAssoc m l ((stk.map Prod.fst).reverse)),
        stk, some l, none⟩ := by
  simp [optStep, isTraverseOrRecurse]

theorem optStep_traverse_opt (c : List Location) (m : List (Location × List Location))
    (stk : List (Location × Bool)) (root : Location) (e : String) :
    optStep ⟨c, m, stk, some root, none⟩ (Block.Traverse e true) =
      ⟨c, m, (root, false) :: flagStackIf stk true, some root, none⟩ := by
  cases stk with
  | nil => simp [optStep, isTraverseOrRecurse, flagStackIf]
  | cons p t =>
    obtain ⟨r, f⟩ := p
    simp [optStep, isTraverseOrRecurse, flagInnermost, flagStackIf]

theorem optStep_traverse_opt_noprec (c : List Location)
    (m : List (Location × List Location)) (stk : List (Location × Bool)) (e : String) :
    (optStep ⟨c, m, stk, none, none⟩ (Block.Traverse e true)).error =
      some "No MarkLocation found before an optional Traverse" := by
  cases stk with
  | nil => simp [optStep, isTraverseOrRecurse, flagStackIf]
  | cons p t =>
    obtain ⟨r, f⟩ := p
    simp [optStep, isTraverseOrRecurse, flagInnermost, flagStackIf]

theorem optStep_travrec_nonopt (b : Block) (c : List Location)
    (m : List (Location × List Location)) (stk : List (Location × Bool))
    (pr : Option Location)
    (hb : isTraverseOrRecurse b = true) (hnotopt : ∀ e, b ≠ Block.Traverse e true) :
    optStep ⟨c, m, stk, pr, none⟩ b = ⟨c, m, flagStackIf stk true, pr, none⟩ := by
  cases b
  case Traverse e opt =>
    cases opt
    case true => exact absurd rfl (hnotopt e)
    case false =>
      cases stk with
      | nil => simp [optStep, isTraverseOrRecurse, flagStackIf]
      | cons p t =>
        obtain ⟨r, f⟩ := p
        simp [optStep, isTraverseOrRecurse, flagInnermost, flagStackIf]
  case Recurse e =>
    cases stk with
    | nil => simp [optStep, isTraverseOrRecurse, flagStackIf]
    | cons p t =>
      obtain ⟨r, f⟩ := p
      simp [optStep, isTraverseOrRecurse, flagInnermost, flagStackIf]
  all_goals simp [isTraverseOrRecurse] at hb

theorem optStep_endoptional (c : List Location) (m : List (Location × List Location))
    (r : Location) (f : Bool) (tail : List (Location × Bool)) (pr : Option Location) :
    optStep ⟨c, m, (r, f) :: tail, pr, none⟩ Block.EndOptional =
      ⟨(if f then c ++ [r] else c), m, tail, pr, none⟩ := by
  simp [optStep, isTraverseOrRecurse]

theorem optStep_other (b : Block) (c : List Location)
    (m : List (Location × List Location)) (stk : List (Location × Bool))
    (pr : Option Location)
    (hb : isTraverseOrRecurse b = false)
    (hmark : ∀ l, b ≠ Block.MarkLocation l)
    (hend : b ≠ Block.EndOptional) :
    optStep ⟨c, m, stk, pr, none⟩ b = ⟨c, m, stk, pr, none⟩ := by
  cases b
  case MarkLocation l => exact absurd rfl (hmark l)
  case EndOptional => exact absurd rfl hend
  case Traverse e opt => simp [isTraverseOrRecurse] at hb
  case Recurse e => simp [isTraverseOrRecurse] at hb
  all_goals simp [optStep, isTraverseOrRecurse]

theorem optLoop_spec : ∀ (n : Nat) (bs : List Block), bs.length ≤ n →
    ∀ (c : List Location) (m : List (Location × List Location))
    (stk : List (Location × Bool)) (pr : Option Location)
    (cB : List Location) (mB : List (Location × List Location)) (pB : Option Location),
    specOptionalAnalysis ((stk.map Prod.fst).reverse) pr bs = some (cB, mB, pB) →
    bs.foldl optStep ⟨c, m, stk, pr, none⟩ =
      ⟨c ++ cB, applyUpdates m mB,
        flagStackIf stk (bs.any isTraverseOrRecurse), pB, none⟩ := by
  intro n
  induction n with
  | zero =>
    intro bs hlen c m stk pr cB mB pB hspec
    have hnil : bs = [] := List.eq_nil_of_length_eq_zero (Nat.le_zero.mp hlen)
    subst hnil
    rw [specOpt_nil] at hspec
    simp only [Option.some.injEq, Prod.mk.injEq] at hspec
    obtain ⟨h1, h2, h3⟩ := hspec
    simp [← h1, ← h2, ← h3, flagStackIf_false, applyUpdates]
  | succ n ih =>
    intro bs hlen c m stk pr cB mB pB hspec
    cases bs with
    | nil =>
      rw [specOpt_nil] at hspec
      simp only [Option.some.injEq, Prod.mk.injEq] at hspec
      obtain ⟨h1, h2, h3⟩ := hspec
      simp [← h1, ← h2, ← h3, flagStackIf_false, applyUpdates]
    | cons b t =>
      cases b
      case MarkLocation l =>
        rw [specOpt_mark] at hspec
        cases hsp1 : specOptionalAnalysis ((stk.map Prod.fst).reverse) (some l) t with
        | none => rw [hsp1] at hspec; exact Option.noConfusion hspec
        | some trip =>
          obtain ⟨c1, m1, p1⟩ := trip
          rw [hsp1] at hspec
          simp only [Option.map_some', Option.some.injEq, Prod.mk.injEq] at hspec
          obtain ⟨h1, h2, h3⟩ := hspec
          rw [List.foldl_cons, optStep_mark]
          rw [ih t (by simp only [List.length_cons] at hlen; omega) c
            (if stk.isEmpty then m else updateAssoc m l ((stk.map Prod.fst).reverse))
            stk (some l) c1 m1 p1 hsp1]
          cases hemp : stk.isEmpty with
          | true =>
            have hre : ((stk.map Prod.fst).reverse).isEmpty = true := by
              rw [stackRoots_isEmpty]; exact hemp
            simp only [hre, if_true] at h2
            rw [← h1, ← h2, ← h3]
            simp [applyUpdates, isTraverseOrRecurse]
          | false =>
            have hre : ((stk.map Prod.fst).reverse).isEmpty = false := by
              rw [stackRoots_isEmpty]; exact hemp
            simp only [hre, Bool.false_eq_true, if_false] at h2
            rw [← h1, ← h2, ← h3]
            simp [applyUpdates, isTraverseOrRecurse]
      case EndOptional =>
        rw [specOpt_endoptional] at hspec
        exact Option.noConfusion hspec
      case Traverse e opt =>
        cases opt
        case false =>
          rw [specOpt_skip _ _ _ _ (by simp) (by simp) (by simp)] at hspec
          rw [List.foldl_cons,
            optStep_travrec_nonopt _ _ _ _ _ (by simp [isTraverseOrRecurse]) (by simp)]
          rw [ih t (by simp only [List.length_cons] at hlen; omega) c m
            (flagStackIf stk true) pr cB mB pB
            (by simpa [flagStackIf_map_fst] using hspec)]
          simp [flagStackIf_or, isTraverseOrRecurse]
        case true =>
          cases pr with
          | none =>
            rw [specOpt_traverse_none] at hspec
            exact Option.noConfusion hspec
          | some root =>
            cases hsb : splitAtMatchingEndOptional 0 t with
            | none =>
              rw [specOpt_traverse_split_none _ _ _ _ hsb] at hspec
              exact Option.noConfusion hspec
            | some p =>
              obtain ⟨body, rest2⟩ := p
              have hteq := splitAtMatchingEndOptional_eq t 0 body rest2 hsb
              subst hteq
              rw [specOpt_traverse _ _ _ _ body rest2 hsb] at hspec
              cases hb1 : specOptionalAnalysis
                  ((stk.map Prod.fst).reverse ++ [root]) (some root) body with
              | none => rw [hb1] at hspec; exact Option.noConfusion hspec
              | some trip1 =>
                obtain ⟨c1, m1, p1⟩ := trip1
                rw [hb1] at hspec
                dsimp only at hspec
                cases hb2 : specOptionalAnalysis
                    ((stk.map Prod.fst).reverse) p1 rest2 with
                | none =>
                  rw [hb2] at hspec
                  dsimp only at hspec
                  exact Option.noConfusion hspec
                | some trip2 =>
                  obtain ⟨c2, m2, p2⟩ := trip2
                  rw [hb2] at hspec
                  dsimp only at hspec
                  simp only [Option.some.injEq, Prod.mk.injEq] at hspec
                  obtain ⟨h1, h2, h3⟩ := hspec
                  have hlen1 : body.length ≤ n := by
                    simp only [List.length_cons, List.length_append] at hlen
                    omega
                  have hlen2 : rest2.length ≤ n := by
                    simp only [List.length_cons, List.length_append] at hlen
                    omega
                  rw [List.foldl_cons, optStep_traverse_opt, List.foldl_append]
                  rw [ih body hlen1 c m ((root, false) :: flagStackIf stk true)
                    (some root) c1 m1 p1
                    (by simpa [flagStackIf_map_fst] using hb1)]
                  have hstack2 : flagStackIf ((root, false) :: flagStackIf stk true)
                      (body.any isTraverseOrRecurse) =
                      (root, body.any isTraverseOrRecurse) :: flagStackIf stk true := by
                    simp [flagStackIf]
                  rw [hstack2, List.foldl_cons, optStep_endoptional]
                  rw [ih rest2 hlen2
                    (if body.any isTraverseOrRecurse then (c ++ c1) ++ [root] else c ++ c1)
                    (applyUpdates m m1) (flagStackIf stk true) p1 c2 m2 p2
                    (by simpa [flagStackIf_map_fst] using hb2)]
                  rw [← h1, ← h2, ← h3]
                  rw [applyUpdates_append]
                  simp only [flagStackIf_or, Bool.true_or]
                  have hany : (Block.Traverse e true :: (body ++ Block.EndOptional :: rest2)).any
                      isTraverseOrRecurse = true := by
                    simp [isTraverseOrRecurse]
                  rw [hany]
                  cases hbt : body.any isTraverseOrRecurse with
                  | true => simp [List.append_assoc]
                  | false => simp [List.append_assoc]
      case Recurse e =>
        rw [specOpt_skip _ _ _ _ (by simp) (by simp) (by simp)] at hspec
        rw [List.foldl_cons,
          optStep_travrec_nonopt _ _ _ _ _ (by simp [isTraverseOrRecurse]) (by simp)]
        rw [ih t (by simp only [List.length_cons] at hlen; omega) c m
          (flagStackIf stk true) pr cB mB pB
          (by simpa [flagStackIf_map_fst] using hspec)]
        simp [flagStackIf_or, isTraverseOrRecurse]
      all_goals
        rw [specOpt_skip _ _ _ _ (by simp) (by simp) (by simp)] at hspec
        rw [List.foldl_cons,
          optStep_other _ _ _ _ _ (by simp [isTraverseOrRecurse]) (by simp) (by simp)]
        rw [ih t (by simp only [List.length_cons] at hlen; omega) c m stk pr cB mB pB hspec]
        simp [isTraverseOrRecurse]

/-- C2: for every well-nested instruction sequence (fold-internal instructions
excluded, and well-nestedness witnessed by the success of the recursive-descent
reference analysis), extract_optional_location_root_info returns exactly the
complex optional roots of the reference analysis - the locations immediately
preceding an optional Traverse whose scope contains at least one Traverse or
Recurse instruction before its closing EndOptional - and the mapping that
sends every location marked while at least one optional scope is open to the
stack of enclosing optional-root locations, outermost first, innermost last,
at arbitrary nesting depth. -/
theorem c2_extract_optional_location_root_info (ir_blocks : List Block)
    (fs : List (FoldScopeLocation × List Block)) (non_folded : List Block)
    (c : List Location) (m : List (Location × List Location)) (p : Option Location)
    (hfold : extract_folds_from_ir_blocks ir_blocks = .ok (fs, non_folded))
    (hspec : specOptionalAnalysis [] none non_folded = some (c, m, p)) :
    extract_optional_location_root_info ir_blocks = .ok (c, applyUpdates [] m) := by
  have h := optLoop_spec non_folded.length non_folded le_rfl [] [] [] none c m p
    (by simpa using hspec)
  rw [extract_optional_location_root_info, hfold]
  dsimp only
  rw [show initOptState = (⟨[], [], [], none, none⟩ : OptState) from rfl, h]
  simp [flagStackIf]

theorem c2_extract_optional_location_root_info_witness :
    extract_optional_location_root_info
      [Block.MarkLocation { markName := "A", field := none },
       Block.Traverse "e1" true,
       Block.MarkLocation { markName := "B", field := none },
       Block.Traverse "e2" true,
       Block.MarkLocation { markName := "C", field := none },
       Block.EndOptional, Block.EndOptional,
       Block.MarkLocation { markName := "D", field := none }] =
    .ok ([{ markName := "A", field := none }],
      applyUpdates []
        [({ markName := "B", field := none }, [{ markName := "A", field := none }]),
         ({ markName := "C", field := none },
          [{ markName := "A", field := none }, { markName := "B", field := none }])]) :=
  c2_extract_optional_location_root_info _ [] _ _ _
    (some { markName := "D", field := none }) rfl
    (by simp [specOptionalAnalysis, splitAtMatchingEndOptional, isTraverseOrRecurse])

theorem optStep_complex_mono : ∀ (s : OptState) (b : Block) (c0 : Location),
    c0 ∈ s.complex_optional_roots → c0 ∈ (optStep s b).complex_optional_roots := by
  intro s b c0 h
  obtain ⟨c, m, stk, pr, err⟩ := s
  cases err with
  | some msg => simpa [optStep] using h
  | none =>
    cases b
    case EndOptional =>
      cases stk with
      | nil => simpa [optStep, isTraverseOrRecurse] using h
      | cons p t =>
        obtain ⟨r, f⟩ := p
        rw [optStep_endoptional]
        cases f with
        | true =>
          simp only [if_true]
          exact List.mem_append_left _ h
        | false => simpa using h
    case Traverse e opt =>
      cases opt
      case true =>
        cases pr with
        | some root => rw [optStep_traverse_opt]; exact h
        | none =>
          cases stk with
          | nil => simpa [optStep, isTraverseOrRecurse, flagStackIf] using h
          | cons p t =>
            obtain ⟨r, f⟩ := p
            simpa [optStep, isTraverseOrRecurse, flagInnermost] using h
      case false =>
        rw [optStep_travrec_nonopt _ _ _ _ _ (by simp [isTraverseOrRecurse]) (by simp)]
        exact h
    case Recurse e =>
      rw [optStep_travrec_nonopt _ _ _ _ _ (by simp [isTraverseOrRecurse]) (by simp)]
      exact h
    case MarkLocation l =>
      rw [optStep_mark]
      exact h
    all_goals
      rw [optStep_other _ _ _ _ _ (by simp [isTraverseOrRecurse]) (by simp) (by simp)]
      exact h

theorem foldl_complex_mono : ∀ (bs : List Block) (s : OptState) (c0 : Location),
    c0 ∈ s.complex_optional_roots →
    c0 ∈ (bs.foldl optStep s).complex_optional_roots := by
  intro bs
  induction bs with
  | nil => intro s c0 h; exact h
  | cons b t ih =>
    intro s c0 h
    rw [List.foldl_cons]
    exact ih (optStep s b) c0 (optStep_complex_mono s b c0 h)

theorem flagStackIf_mem_true {r : Location} {stk : List (Location × Bool)} (b : Bool)
    (h : (r, true) ∈ stk) : (r, true) ∈ flagStackIf stk b := by
  cases stk with
  | nil => simp at h
  | cons p t =>
    obtain ⟨x, f⟩ := p
    rcases List.mem_cons.mp h with h2 | h2
    · simp only [Prod.mk.injEq] at h2
      rw [flagStackIf]
      rw [← h2.1, ← h2.2]
      simp
    · rw [flagStackIf]
      exact List.mem_cons_of_mem _ h2

theorem optStep_flag_preserved : ∀ (s : OptState) (b : Block) (r : Location),
    (r, true) ∈ s.stack →
    (r, true) ∈ (optStep s b).stack ∨ r ∈ (optStep s b).complex_optional_roots := by
  intro s b r h
  obtain ⟨c, m, stk, pr, err⟩ := s
  cases err with
  | some msg => exact Or.inl (by simpa [optStep] using h)
  | none =>
    cases b
    case EndOptional =>
      cases stk with
      | nil => simp at h
      | cons p t =>
        obtain ⟨x, f⟩ := p
        rw [optStep_endoptional]
        rcases List.mem_cons.mp h with h2 | h2
        · simp only [Prod.mk.injEq] at h2
          right
          rw [← h2.2]
          simp only [if_true]
          rw [← h2.1]
          simp
        · exact Or.inl h2
    case Traverse e opt =>
      cases opt
      case true =>
        cases pr with
        | some root =>
          rw [optStep_traverse_opt]
          exact Or.inl (List.mem_cons_of_mem _ (flagStackIf_mem_true true h))
        | none =>
          left
          cases stk with
          | nil => simp at h
          | cons p t =>
            obtain ⟨x, f⟩ := p
            have h2 := @flagStackIf_mem_true r ((x, f) :: t) true h
            simpa [optStep, isTraverseOrRecurse, flagInnermost, flagStackIf] using h2
      case false =>
        rw [optStep_travrec_nonopt _ _ _ _ _ (by simp [isTraverseOrRecurse]) (by simp)]
        exact Or.inl (flagStackIf_mem_true true h)
    case Recurse e =>
      rw [optStep_travrec_nonopt _ _ _ _ _ (by simp [isTraverseOrRecurse]) (by simp)]
      exact Or.inl (flagStackIf_mem_true true h)
    case MarkLocation l =>
      rw [optStep_mark]
      exact Or.inl h
    all_goals
      rw [optStep_other _ _ _ _ _ (by simp [isTraverseOrRecurse]) (by simp) (by simp)]
      exact Or.inl h

theorem foldl_flagged_complex : ∀ (bs : List Block) (s : OptState) (r : Location),
    (r, true) ∈ s.stack →
    (bs.foldl optStep s).stack = [] →
    r ∈ (bs.foldl optStep s).complex_optional_roots := by
  intro bs
  induction bs with
  | nil =>
    intro s r h hstack
    rw [List.foldl_nil] at hstack ⊢
    rw [hstack] at h
    simp at h
  | cons b t ih =>
    intro s r h hstack
    rw [List.foldl_cons] at hstack ⊢
    rcases optStep_flag_preserved s b r h with h2 | h2
    · exact ih (optStep s b) r h2 hstack
    · exact foldl_complex_mono t (optStep s b) r h2

/-- C10: in extract_optional_location_root_info, an optional Traverse
encountered while another optional scope is already open flags the innermost
already-open scope, so whenever the scan reaches an optional Traverse with a
nonempty scope stack and the whole sequence closes all its optional scopes,
the root of the innermost enclosing scope is recorded among the complex
optional roots: the parent root of every directly nested optional scope is
classified complex. -/
theorem c10_nested_optional_parent_complex (ir_blocks : List Block)
    (fs : List (FoldScopeLocation × List Block)) (non_folded A rest : List Block)
    (e : String) (r : Location) (f : Bool) (tail : List (Location × Bool))
    (c : List Location) (m : List (Location × List Location))
    (hfold : extract_folds_from_ir_blocks ir_blocks = .ok (fs, non_folded))
    (hsplit : non_folded = A ++ Block.Traverse e true :: rest)
    (hstack : (A.foldl optStep initOptState).stack = (r, f) :: tail)
    (hok : extract_optional_location_root_info ir_blocks = .ok (c, m))
    (hclosed : (non_folded.foldl optStep initOptState).stack = []) :
    r ∈ c := by
  rw [extract_optional_location_root_info, hfold] at hok
  dsimp only at hok
  cases herr : (non_folded.foldl optStep initOptState).error with
  | some msg => rw [herr] at hok; exact Except.noConfusion hok
  | none =>
    rw [herr] at hok
    simp only [Except.ok.injEq, Prod.mk.injEq] at hok
    rcases hsa : A.foldl optStep initOptState with ⟨ca, ma, ska, pra, erra⟩
    have hska : ska = (r, f) :: tail := by rw [hsa] at hstack; exact hstack
    have hfin : non_folded.foldl optStep initOptState =
        rest.foldl optStep (optStep ⟨ca, ma, ska, pra, erra⟩ (Block.Traverse e true)) := by
      rw [hsplit, List.foldl_append, hsa, List.foldl_cons]
    cases erra with
    | some msg =>
      have hfrozen1 : optStep ⟨ca, ma, ska, pra, some msg⟩ (Block.Traverse e true) =
          ⟨ca, ma, ska, pra, some msg⟩ := optStep_frozen _ _ msg rfl
      have : (non_folded.foldl optStep initOptState).error = some msg := by
        rw [hfin, hfrozen1, foldl_optStep_frozen rest _ msg rfl]
      rw [herr] at this
      exact Option.noConfusion this
    | none =>
      cases hpra : pra with
      | none =>
        have herr2 : (optStep ⟨ca, ma, ska, none, none⟩ (Block.Traverse e true)).error =
            some "No MarkLocation found before an optional Traverse" :=
          optStep_traverse_opt_noprec ca ma ska e
        rcases hstep : optStep ⟨ca, ma, ska, none, none⟩ (Block.Traverse e true) with
          ⟨cb, mb, skb, prb, errb⟩
        rw [hstep] at herr2
        simp only at herr2
        have : (non_folded.foldl optStep initOptState).error =
            some "No MarkLocation found before an optional Traverse" := by
          rw [hfin, hpra, hstep, foldl_optStep_frozen rest _ _ herr2]
          exact herr2
        rw [herr] at this
        exact Option.noConfusion this
      | some root =>
        rw [hpra] at hfin
        rw [optStep_traverse_opt] at hfin
        have hmem : (r, true) ∈
            ((root, false) :: flagStackIf ska true : List (Location × Bool)) := by
          rw [hska]
          rw [flagStackIf]
          simp
        have hr := foldl_flagged_complex rest
          ⟨ca, ma, (root, false) :: flagStackIf ska true, some root, none⟩ r hmem
          (by rw [← hfin]; exact hclosed)
        rw [← hfin] at hr
        rw [← hok.1]
        exact hr

theorem c10_nested_optional_parent_complex_witness :
    ({ markName := "A", field := none } : Location) ∈
      ([{ markName := "A", field := none }] : List Location) :=
  c10_nested_optional_parent_complex
    [Block.MarkLocation { markName := "A", field := none },
     Block.Traverse "e1" true,
     Block.MarkLocation { markName := "B", field := none },
     Block.Traverse "e2" true,
     Block.MarkLocation { markName := "C", field := none },
     Block.EndOptional, Block.EndOptional,
     Block.MarkLocation { markName := "D", field := none }]
    []
    [Block.MarkLocation { markName := "A", field := none },
     Block.Traverse "e1" true,
     Block.MarkLocation { markName := "B", field := none },
     Block.Traverse "e2" true,
     Block.MarkLocation { markName := "C", field := none },
     Block.EndOptional, Block.EndOptional,
     Block.MarkLocation { markName := "D", field := none }]
    [Block.MarkLocation { markName := "A", field := none },
     Block.Traverse "e1" true,
     Block.MarkLocation { markName := "B", field := none }]
    [Block.MarkLocation { markName := "C", field := none },
     Block.EndOptional, Block.EndOptional,
     Block.MarkLocation { markName := "D", field := none }]
    "e2" { markName := "A", field := none } false []
    [{ markName := "A", field := none }]
    [({ markName := "B", field := none }, [{ markName := "A", field := none }]),
     ({ markName := "C", field := none },
      [{ markName := "A", field := none }, { markName := "B", field := none }])]
    rfl rfl (by decide) rfl (by decide)

/-! ## Claim C3: simple-optional classification -/

theorem lastMarkFrom_cons_skip (prec : Option Location) (b : Block) (A : List Block)
    (hm : ∀ l, b ≠ Block.MarkLocation l) :
    lastMarkFrom prec (b :: A) = lastMarkFrom prec A := by
  cases b <;>
    first
    | exact absurd rfl (hm _)
    | rfl

theorem simple_map_entries : ∀ (items : List (Location × Location))
    (acc : List (Location × Location)) (cro : List Location) (r i : Location),
    (r, i) ∈ items.foldl
      (fun acc p => if p.2 ∈ cro then acc else updateAssoc acc p.2 p.1) acc →
    (r, i) ∈ acc ∨ ((i, r) ∈ items ∧ r ∉ cro) := by
  intro items
  induction items with
  | nil => intro acc cro r i h; exact Or.inl h
  | cons p t ih =>
    intro acc cro r i h
    rw [List.foldl_cons] at h
    rcases ih _ cro r i h with h2 | h2
    · by_cases hc : p.2 ∈ cro
      · rw [if_pos hc] at h2
        exact Or.inl h2
      · rw [if_neg hc] at h2
        rcases mem_updateAssoc h2 with h3 | h3
        · exact Or.inl h3
        · right
          refine ⟨?_, h3.1 ▸ hc⟩
          rw [h3.1, h3.2]
          exact List.mem_cons_self _ _
    · exact Or.inr ⟨List.mem_cons_of_mem _ h2.1, h2.2⟩

theorem simple_loop_entries : ∀ (bs : List Block)
    (sm : List (Location × Location)) (acc : List (Location × SimpleOptionalInfo))
    (prec : Option Location) (root : Location) (info : SimpleOptionalInfo),
    (root, info) ∈ simple_optional_loop sm acc prec bs →
    (root, info) ∈ acc ∨
    ∃ inner A e rest, bs = A ++ Block.Traverse e true :: rest ∧
      lastMarkFrom prec A = some root ∧ lookupAssoc sm root = some inner ∧
      info = ⟨inner.markName, e⟩ := by
  intro bs
  induction bs with
  | nil => intro sm acc prec root info h; exact Or.inl h
  | cons b t ih =>
    intro sm acc prec root info h
    cases b
    case MarkLocation l =>
      rcases ih sm acc (some l) root info h with h2 | h2
      · exact Or.inl h2
      · obtain ⟨inner, A, e, rest, hdec, hlast, hlk, hinfo⟩ := h2
        right
        exact ⟨inner, Block.MarkLocation l :: A, e, rest, by simp [hdec], hlast, hlk, hinfo⟩
    case Traverse e2 opt =>
      cases opt
      case true =>
        cases hp : prec with
        | none =>
          rw [hp] at h
          rcases ih sm acc none root info h with h2 | h2
          · exact Or.inl h2
          · obtain ⟨inner, A, e, rest, hdec, hlast, hlk, hinfo⟩ := h2
            right
            exact ⟨inner, Block.Traverse e2 true :: A, e, rest, by simp [hdec],
              hlast, hlk, hinfo⟩
        | some pl =>
          rw [hp] at h
          cases hlk0 : lookupAssoc sm pl with
          | none =>
            rw [show simple_optional_loop sm acc (some pl) (Block.Traverse e2 true :: t) =
                simple_optional_loop sm acc (some pl) t from by
              rw [simple_optional_loop, hlk0]] at h
            rcases ih sm acc (some pl) root info h with h2 | h2
            · exact Or.inl h2
            · obtain ⟨inner, A, e, rest, hdec, hlast, hlk, hinfo⟩ := h2
              right
              exact ⟨inner, Block.Traverse e2 true :: A, e, rest, by simp [hdec],
                hlast, hlk, hinfo⟩
          | some inner0 =>
            rw [show simple_optional_loop sm acc (some pl) (Block.Traverse e2 true :: t) =
                simple_optional_loop sm
                  (updateAssoc acc pl ⟨(inner0.get_location_name).1, e2⟩)
                  (some pl) t from by
              rw [simple_optional_loop, hlk0]] at h
            rcases ih sm _ (some pl) root info h with h2 | h2
            · rcases mem_updateAssoc h2 with h3 | h3
              · exact Or.inl h3
              · right
                refine ⟨inner0, [], e2, t, rfl, ?_, ?_, ?_⟩
                · rw [lastMarkFrom, h3.1]
                · rw [h3.1]; exact hlk0
                · rw [h3.2]; rfl
            · obtain ⟨inner, A, e, rest, hdec, hlast, hlk, hinfo⟩ := h2
              right
              exact ⟨inner, Block.Traverse e2 true :: A, e, rest, by simp [hdec],
                hlast, hlk, hinfo⟩
      case false =>
        rcases ih sm acc prec root info (by
          rw [show simple_optional_loop sm acc prec (Block.Traverse e2 false :: t) =
              simple_optional_loop sm acc prec t from by
                rw [simple_optional_loop] <;> simp] at h
          exact h) with h2 | h2
        · exact Or.inl h2
        · obtain ⟨inner, A, e, rest, hdec, hlast, hlk, hinfo⟩ := h2
          right
          exact ⟨inner, Block.Traverse e2 false :: A, e, rest, by simp [hdec],
            by rw [lastMarkFrom_cons_skip _ _ _ (by simp)]; exact hlast, hlk, hinfo⟩
    case ConstructResult fields =>
      rcases ih sm acc prec root info (by
        rw [show simple_optional_loop sm acc prec (Block.ConstructResult fields :: t) =
            simple_optional_loop sm acc prec t from by
              rw [simple_optional_loop] <;> simp] at h
        exact h) with h2 | h2
      · exact Or.inl h2
      · obtain ⟨inner, A, e, rest, hdec, hlast, hlk, hinfo⟩ := h2
        right
        exact ⟨inner, Block.ConstructResult fields :: A, e, rest, by simp [hdec],
          by rw [lastMarkFrom_cons_skip _ _ _ (by simp)]; exact hlast, hlk, hinfo⟩
    case EndOptional =>
      rcases ih sm acc prec root info (by
        rw [show simple_optional_loop sm acc prec (Block.EndOptional :: t) =
            simple_optional_loop sm acc prec t from by
              rw [simple_optional_loop] <;> simp] at h
        exact h) with h2 | h2
      · exact Or.inl h2
      · obtain ⟨inner, A, e, rest, hdec, hlast, hlk, hinfo⟩ := h2
        right
        exact ⟨inner, Block.EndOptional :: A, e, rest, by simp [hdec],
          by rw [lastMarkFrom_cons_skip _ _ _ (by simp)]; exact hlast, hlk, hinfo⟩
    case Fold l0 =>
      rcases ih sm acc prec root info (by
        rw [show simple_optional_loop sm acc prec (Block.Fold l0 :: t) =
            simple_optional_loop sm acc prec t from by
              rw [simple_optional_loop] <;> simp] at h
        exact h) with h2 | h2
      · exact Or.inl h2
      · obtain ⟨inner, A, e, rest, hdec, hlast, hlk, hinfo⟩ := h2
        right
        exact ⟨inner, Block.Fold l0 :: A, e, rest, by simp [hdec],
          by rw [lastMarkFrom_cons_skip _ _ _ (by simp)]; exact hlast, hlk, hinfo⟩
    case Recurse er =>
      rcases ih sm acc prec root info (by
        rw [show simple_optional_loop sm acc prec (Block.Recurse er :: t) =
            simple_optional_loop sm acc prec t from by
              rw [simple_optional_loop] <;> simp] at h
        exact h) with h2 | h2
      · exact Or.inl h2
      · obtain ⟨inner, A, e, rest, hdec, hlast, hlk, hinfo⟩ := h2
        right
        exact ⟨inner, Block.Recurse er :: A, e, rest, by simp [hdec],
          by rw [lastMarkFrom_cons_skip _ _ _ (by simp)]; exact hlast, hlk, hinfo⟩
    case Unfold =>
      rcases ih sm acc prec root info (by
        rw [show simple_optional_loop sm acc prec (Block.Unfold :: t) =
            simple_optional_loop sm acc prec t from by
              rw [simple_optional_loop] <;> simp] at h
        exact h) with h2 | h2
      · exact Or.inl h2
      · obtain ⟨inner, A, e, rest, hdec, hlast, hlk, hinfo⟩ := h2
        right
        exact ⟨inner, Block.Unfold :: A, e, rest, by simp [hdec],
          by rw [lastMarkFrom_cons_skip _ _ _ (by simp)]; exact hlast, hlk, hinfo⟩
    case Filter pred =>
      rcases ih sm acc prec root info (by
        rw [show simple_optional_loop sm acc prec (Block.Filter pred :: t) =
            simple_optional_loop sm acc prec t from by
              rw [simple_optional_loop] <;> simp] at h
        exact h) with h2 | h2
      · exact Or.inl h2
      · obtain ⟨inner, A, e, rest, hdec, hlast, hlk, hinfo⟩ := h2
        right
        exact ⟨inner, Block.Filter pred :: A, e, rest, by simp [hdec],
          by rw [lastMarkFrom_cons_skip _ _ _ (by simp)]; exact hlast, hlk, hinfo⟩

theorem mem_keys_any {α β : Type} [DecidableEq α] (m : List (α × β)) (k : α) :
    m.any (fun p => decide (p.1 = k)) = true ↔ k ∈ m.map Prod.fst := by
  induction m with
  | nil => simp
  | cons p t ih =>
    obtain ⟨a, b⟩ := p
    simp only [List.any_cons, List.map_cons, List.mem_cons, Bool.or_eq_true,
      decide_eq_true_eq, ih]
    constructor
    · rintro (h | h)
      · exact Or.inl h.symm
      · exact Or.inr h
    · rintro (h | h)
      · exact Or.inl h.symm
      · exact Or.inr h

theorem lookupAssoc_eq_none {α β : Type} [DecidableEq α] :
    ∀ (m : List (α × β)) (k : α), k ∉ m.map Prod.fst → lookupAssoc m k = none := by
  intro m
  induction m with
  | nil => intro k _; rfl
  | cons p t ih =>
    intro k h
    obtain ⟨a, b⟩ := p
    simp only [List.map_cons, List.mem_cons] at h
    push_neg at h
    rw [lookupAssoc, if_neg (fun hh => h.1 hh.symm)]
    exact ih k h.2

theorem lookupAssoc_append_none {α β : Type} [DecidableEq α] :
    ∀ (m1 m2 : List (α × β)) (k : α), lookupAssoc m1 k = none →
    lookupAssoc (m1 ++ m2) k = lookupAssoc m2 k := by
  intro m1
  induction m1 with
  | nil => intro m2 k _; rfl
  | cons p t ih =>
    intro m2 k h
    obtain ⟨a, b⟩ := p
    by_cases hak : a = k
    · rw [lookupAssoc, if_pos hak] at h
      exact Option.noConfusion h
    · rw [lookupAssoc, if_neg hak] at h
      rw [List.cons_append, lookupAssoc, if_neg hak]
      exact ih m2 k h

theorem lookupAssoc_append_some {α β : Type} [DecidableEq α] :
    ∀ (m1 m2 : List (α × β)) (k : α) (v : β), lookupAssoc m1 k = some v →
    lookupAssoc (m1 ++ m2) k = some v := by
  intro m1
  induction m1 with
  | nil => intro m2 k v h; exact Option.noConfusion h
  | cons p t ih =>
    intro m2 k v h
    obtain ⟨a, b⟩ := p
    by_cases hak : a = k
    · rw [lookupAssoc, if_pos hak] at h
      rw [List.cons_append, lookupAssoc, if_pos hak]
      exact h
    · rw [lookupAssoc, if_neg hak] at h
      rw [List.cons_append, lookupAssoc, if_neg hak]
      exact ih m2 k v h

theorem lookupAssoc_map_update_self {α β : Type} [DecidableEq α] :
    ∀ (m : List (α × β)) (k : α) (v : β), k ∈ m.map Prod.fst →
    lookupAssoc (m.map (fun p => if p.1 = k then (k, v) else p)) k = some v := by
  intro m
  induction m with
  | nil => intro k v h; simp at h
  | cons p t ih =>
    intro k v h
    obtain ⟨a, b⟩ := p
    simp only [List.map_cons]
    by_cases hak : a = k
    · subst hak
      rw [if_pos rfl, lookupAssoc, if_pos rfl]
    · rw [if_neg hak, lookupAssoc, if_neg hak]
      apply ih
      simp only [List.map_cons, List.mem_cons] at h
      rcases h with h | h
      · exact absurd h.symm hak
      · exact h

theorem lookupAssoc_map_update_ne {α β : Type} [DecidableEq α] :
    ∀ (m : List (α × β)) (k k2 : α) (v : β), ¬ k = k2 →
    lookupAssoc (m.map (fun p => if p.1 = k then (k, v) else p)) k2 =
      lookupAssoc m k2 := by
  intro m k k2 v hkk2
  induction m with
  | nil => rfl
  | cons p t ih =>
    obtain ⟨a, b⟩ := p
    simp only [List.map_cons]
    by_cases hak : a = k
    · subst hak
      rw [if_pos rfl, lookupAssoc, if_neg hkk2, lookupAssoc, if_neg hkk2]
      exact ih
    · rw [if_neg hak]
      by_cases hak2 : a = k2
      · rw [lookupAssoc, if_pos hak2, lookupAssoc, if_pos hak2]
      · rw [lookupAssoc, if_neg hak2, lookupAssoc, if_neg hak2]
        exact ih

theorem lookupAssoc_updateAssoc_self {α β : Type} [DecidableEq α] :
    ∀ (m : List (α × β)) (k : α) (v : β),
    lookupAssoc (updateAssoc m k v) k = some v := by
  intro m k v
  rw [updateAssoc]
  by_cases hmem : k ∈ m.map Prod.fst
  · rw [if_pos ((mem_keys_any m k).mpr hmem)]
    exact lookupAssoc_map_update_self m k v hmem
  · rw [if_neg (fun hh => hmem ((mem_keys_any m k).mp hh))]
    rw [lookupAssoc_append_none m [(k, v)] k (lookupAssoc_eq_none m k hmem)]
    rw [lookupAssoc, if_pos rfl]

theorem lookupAssoc_updateAssoc_ne {α β : Type} [DecidableEq α] :
    ∀ (m : List (α × β)) (k k2 : α) (v : β), k2 ≠ k →
    lookupAssoc (updateAssoc m k v) k2 = lookupAssoc m k2 := by
  intro m k k2 v hne
  have hkk2 : ¬ k = k2 := fun hh => hne hh.symm
  rw [updateAssoc]
  by_cases hany : m.any (fun p => decide (p.1 = k)) = true
  · rw [if_pos hany]
    exact lookupAssoc_map_update_ne m k k2 v hkk2
  · rw [if_neg hany]
    cases hlk : lookupAssoc m k2 with
    | none =>
      rw [lookupAssoc_append_none m [(k, v)] k2 hlk, lookupAssoc, if_neg hkk2,
        lookupAssoc]
    | some w =>
      exact lookupAssoc_append_some m [(k, v)] k2 w hlk

theorem location_to_preceding_mem : ∀ (ltor : List (Location × List Location))
    (items : List (Location × Location)),
    location_to_preceding_optional_root ltor = .ok items →
    ∀ (i r : Location),
    ((i, r) ∈ items ↔ ∃ st, (i, st) ∈ ltor ∧ st.getLast? = some r) := by
  intro ltor
  induction ltor with
  | nil =>
    intro items h i r
    simp only [location_to_preceding_optional_root, Except.ok.injEq] at h
    rw [← h]
    simp
  | cons p t ih =>
    intro items h i r
    obtain ⟨loc, stk⟩ := p
    rw [location_to_preceding_optional_root] at h
    cases hl : stk.getLast? with
    | none =>
      rw [hl] at h
      exact Except.noConfusion h
    | some r0 =>
      rw [hl] at h
      cases hrec : location_to_preceding_optional_root t with
      | error e =>
        rw [hrec] at h
        exact Except.noConfusion h
      | ok tail =>
        rw [hrec] at h
        simp only [Except.ok.injEq] at h
        rw [← h]
        constructor
        · intro hmem
          rcases List.mem_cons.mp hmem with h2 | h2
          · simp only [Prod.mk.injEq] at h2
            exact ⟨stk, by rw [h2.1]; exact List.mem_cons_self _ _,
              by rw [hl, h2.2]⟩
          · obtain ⟨st, hst, hstl⟩ := (ih tail hrec i r).mp h2
            exact ⟨st, List.mem_cons_of_mem _ hst, hstl⟩
        · rintro ⟨st, hst, hstl⟩
          rcases List.mem_cons.mp hst with h2 | h2
          · simp only [Prod.mk.injEq] at h2
            have hr : r0 = r := by
              rw [h2.2, hl] at hstl
              simp only [Option.some.injEq] at hstl
              exact hstl
            rw [h2.1, ← hr]
            exact List.mem_cons_self _ _
          · exact List.mem_cons_of_mem _ ((ih tail hrec i r).mpr ⟨st, h2, hstl⟩)

theorem sm_lookup_complete : ∀ (items : List (Location × Location))
    (acc : List (Location × Location)) (cro : List Location) (root inner : Location),
    (∀ x, (x, root) ∈ items → x = inner) →
    root ∉ cro →
    ((inner, root) ∈ items ∨ lookupAssoc acc root = some inner) →
    lookupAssoc
      (items.foldl (fun acc p => if p.2 ∈ cro then acc else updateAssoc acc p.2 p.1) acc)
      root = some inner := by
  intro items
  induction items with
  | nil =>
    intro acc cro root inner _ _ h
    rcases h with h | h
    · exact absurd h (List.not_mem_nil _)
    · exact h
  | cons p t ih =>
    intro acc cro root inner huniq hroot h
    rw [List.foldl_cons]
    apply ih _ cro root inner (fun x hx => huniq x (List.mem_cons_of_mem _ hx)) hroot
    obtain ⟨pi, pr⟩ := p
    dsimp only
    by_cases hpr : pr = root
    · subst hpr
      have hpi : pi = inner := huniq pi (List.mem_cons_self _ _)
      subst hpi
      right
      rw [if_neg hroot]
      exact lookupAssoc_updateAssoc_self acc pr pi
    · rcases h with h2 | h2
      · rcases List.mem_cons.mp h2 with h3 | h3
        · simp only [Prod.mk.injEq] at h3
          exact absurd h3.2.symm hpr
        · left
          exact h3
      · right
        by_cases hc : pr ∈ cro
        · rw [if_pos hc]
          exact h2
        · rw [if_neg hc]
          rw [lookupAssoc_updateAssoc_ne acc pr root pi (fun hh => hpr hh.symm)]
          exact h2

theorem lastMarkFrom_append : ∀ (X Y : List Block) (prec : Option Location),
    lastMarkFrom prec (X ++ Y) = lastMarkFrom (lastMarkFrom prec X) Y := by
  intro X
  induction X with
  | nil => intro Y prec; rfl
  | cons b t ih =>
    intro Y prec
    cases b
    case MarkLocation l => exact ih Y (some l)
    all_goals exact ih Y prec

theorem simple_loop_append : ∀ (A X : List Block) (sm : List (Location × Location))
    (acc : List (Location × SimpleOptionalInfo)) (prec : Option Location),
    simple_optional_loop sm acc prec (A ++ X) =
      simple_optional_loop sm (simple_optional_loop sm acc prec A)
        (lastMarkFrom prec A) X := by
  intro A
  induction A with
  | nil => intro X sm acc prec; rfl
  | cons b t ih =>
    intro X sm acc prec
    cases b
    case MarkLocation l => exact ih X sm acc (some l)
    case Traverse e opt =>
      cases opt
      case true =>
        cases prec with
        | none => exact ih X sm acc none
        | some p =>
          cases hlk : lookupAssoc sm p with
          | none =>
            rw [show simple_optional_loop sm acc (some p)
                  ((Block.Traverse e true :: t) ++ X) =
                simple_optional_loop sm acc (some p) (t ++ X) from by
              rw [List.cons_append, simple_optional_loop, hlk]]
            rw [show simple_optional_loop sm acc (some p) (Block.Traverse e true :: t) =
                simple_optional_loop sm acc (some p) t from by
              rw [simple_optional_loop, hlk]]
            exact ih X sm acc (some p)
          | some i =>
            rw [show simple_optional_loop sm acc (some p)
                  ((Block.Traverse e true :: t) ++ X) =
                simple_optional_loop sm
                  (updateAssoc acc p ⟨(i.get_location_name).1, e⟩) (some p)
                  (t ++ X) from by
              rw [List.cons_append, simple_optional_loop, hlk]]
            rw [show simple_optional_loop sm acc (some p) (Block.Traverse e true :: t) =
                simple_optional_loop sm
                  (updateAssoc acc p ⟨(i.get_location_name).1, e⟩) (some p) t from by
              rw [simple_optional_loop, hlk]]
            exact ih X sm (updateAssoc acc p ⟨(i.get_location_name).1, e⟩) (some p)
      case false => exact ih X sm acc prec
    all_goals exact ih X sm acc prec

theorem simple_loop_preserve_key : ∀ (bs : List Block)
    (sm : List (Location × Location)) (acc : List (Location × SimpleOptionalInfo))
    (prec : Option Location) (root : Location),
    (∀ (A2 : List Block) (e2 : String) (rest2 : List Block),
      bs = A2 ++ Block.Traverse e2 true :: rest2 →
      lastMarkFrom prec A2 ≠ some root) →
    lookupAssoc (simple_optional_loop sm acc prec bs) root = lookupAssoc acc root := by
  intro bs
  induction bs with
  | nil => intro sm acc prec root _; rfl
  | cons b t ih =>
    intro sm acc prec root hno
    cases b
    case MarkLocation l =>
      exact ih sm acc (some l) root (fun A2 e2 rest2 hdec2 hlast2 =>
        hno (Block.MarkLocation l :: A2) e2 rest2 (by simp [hdec2]) hlast2)
    case Traverse e2 opt =>
      cases opt
      case true =>
        cases prec with
        | none =>
          exact ih sm acc none root (fun A2 e3 rest2 hdec2 hlast2 =>
            hno (Block.Traverse e2 true :: A2) e3 rest2 (by simp [hdec2]) hlast2)
        | some p =>
          have hpr : p ≠ root := fun hp => hno [] e2 t rfl (by rw [hp]; rfl)
          cases hlk : lookupAssoc sm p with
          | none =>
            rw [show simple_optional_loop sm acc (some p) (Block.Traverse e2 true :: t) =
                simple_optional_loop sm acc (some p) t from by
              rw [simple_optional_loop, hlk]]
            exact ih sm acc (some p) root (fun A2 e3 rest2 hdec2 hlast2 =>
              hno (Block.Traverse e2 true :: A2) e3 rest2 (by simp [hdec2]) hlast2)
          | some i =>
            rw [show simple_optional_loop sm acc (some p) (Block.Traverse e2 true :: t) =
                simple_optional_loop sm
                  (updateAssoc acc p ⟨(i.get_location_name).1, e2⟩) (some p) t from by
              rw [simple_optional_loop, hlk]]
            rw [ih sm (updateAssoc acc p ⟨(i.get_location_name).1, e2⟩) (some p) root
              (fun A2 e3 rest2 hdec2 hlast2 =>
                hno (Block.Traverse e2 true :: A2) e3 rest2 (by simp [hdec2]) hlast2)]
            exact lookupAssoc_updateAssoc_ne acc p root _ (fun hh => hpr hh.symm)
      case false =>
        exact ih sm acc prec root (fun A2 e3 rest2 hdec2 hlast2 =>
          hno (Block.Traverse e2 false :: A2) e3 rest2 (by simp [hdec2]) hlast2)
    case ConstructResult fields =>
      exact ih sm acc prec root (fun A2 e3 rest2 hdec2 hlast2 =>
        hno (Block.ConstructResult fields :: A2) e3 rest2 (by simp [hdec2]) hlast2)
    case EndOptional =>
      exact ih sm acc prec root (fun A2 e3 rest2 hdec2 hlast2 =>
        hno (Block.EndOptional :: A2) e3 rest2 (by simp [hdec2]) hlast2)
    case Fold l0 =>
      exact ih sm acc prec root (fun A2 e3 rest2 hdec2 hlast2 =>
        hno (Block.Fold l0 :: A2) e3 rest2 (by simp [hdec2]) hlast2)
    case Recurse er =>
      exact ih sm acc prec root (fun A2 e3 rest2 hdec2 hlast2 =>
        hno (Block.Recurse er :: A2) e3 rest2 (by simp [hdec2]) hlast2)
    case Unfold =>
      exact ih sm acc prec root (fun A2 e3 rest2 hdec2 hlast2 =>
        hno (Block.Unfold :: A2) e3 rest2 (by simp [hdec2]) hlast2)
    case Filter pred =>
      exact ih sm acc prec root (fun A2 e3 rest2 hdec2 hlast2 =>
        hno (Block.Filter pred :: A2) e3 rest2 (by simp [hdec2]) hlast2)

theorem simple_loop_complete_key :
    ∀ (sm : List (Location × Location)) (acc : List (Location × SimpleOptionalInfo))
      (A rest : List Block) (e : String) (root inner : Location),
    lastMarkFrom none A = some root →
    lookupAssoc sm root = some inner →
    (∀ (A2 : List Block) (e2 : String) (rest2 : List Block),
      rest = A2 ++ Block.Traverse e2 true :: rest2 →
      lastMarkFrom (some root) A2 ≠ some root) →
    lookupAssoc (simple_optional_loop sm acc none (A ++ Block.Traverse e true :: rest))
      root = some ⟨inner.markName, e⟩ := by
  intro sm acc A rest e root inner hlast hlk hrest
  rw [simple_loop_append, hlast]
  rw [show simple_optional_loop sm (simple_optional_loop sm acc none A) (some root)
      (Block.Traverse e true :: rest) =
      simple_optional_loop sm
        (updateAssoc (simple_optional_loop sm acc none A) root
          ⟨(inner.get_location_name).1, e⟩)
        (some root) rest from by
    rw [simple_optional_loop, hlk]]
  rw [simple_loop_preserve_key rest sm _ (some root) root hrest]
  rw [lookupAssoc_updateAssoc_self]
  rfl

/-- C3: for every instruction sequence and optional-analysis outputs, every
entry of extract_simple_optional_location_info maps a root that is not among
the complex optional roots to the mark name of the location marked inside its
optional scope (the location whose innermost enclosing root, per the
location-to-roots mapping, is that root) and to the edge field of an optional
Traverse whose most recently marked preceding location is that root
(soundness); conversely, every simple optional root — the most recently
marked location preceding an optional Traverse of the non-folded sequence,
not listed among the complex optional roots, such that some location has it
as innermost enclosing root, all such locations coincide, and no later
optional Traverse is preceded by it — appears as a key, mapped to exactly
that inner location's mark name and that Traverse's edge field
(completeness); and on the sequence MarkLocation(A), Traverse(optional, e1),
MarkLocation(B), EndOptional the analysis classifies root A as simple with
inner location name B and edge field e1, with no complex root as a key. -/
theorem c3_extract_simple_optional_location_info :
    (∀ (ir_blocks : List Block) (complex_optional_roots : List Location)
       (location_to_optional_roots : List (Location × List Location))
       (res : List (Location × SimpleOptionalInfo))
       (root : Location) (info : SimpleOptionalInfo),
      extract_simple_optional_location_info ir_blocks complex_optional_roots
        location_to_optional_roots = .ok res →
      (root, info) ∈ res →
      root ∉ complex_optional_roots ∧
      (∃ inner stack, (inner, stack) ∈ location_to_optional_roots ∧
        stack.getLast? = some root ∧ info.inner_location_name = inner.markName) ∧
      (∃ fs non_folded A rest,
        extract_folds_from_ir_blocks ir_blocks = .ok (fs, non_folded) ∧
        non_folded = A ++ Block.Traverse info.edge_field true :: rest ∧
        lastMarkFrom none A = some root)) ∧
    (∀ (ir_blocks : List Block) (complex_optional_roots : List Location)
       (location_to_optional_roots : List (Location × List Location))
       (res : List (Location × SimpleOptionalInfo))
       (fs : List (FoldScopeLocation × List Block)) (non_folded : List Block)
       (A rest : List Block) (e : String) (root inner : Location)
       (stack : List Location),
      extract_simple_optional_location_info ir_blocks complex_optional_roots
        location_to_optional_roots = .ok res →
      extract_folds_from_ir_blocks ir_blocks = .ok (fs, non_folded) →
      non_folded = A ++ Block.Traverse e true :: rest →
      lastMarkFrom none A = some root →
      (∀ (A2 : List Block) (e2 : String) (rest2 : List Block),
        rest = A2 ++ Block.Traverse e2 true :: rest2 →
        lastMarkFrom (some root) A2 ≠ some root) →
      (inner, stack) ∈ location_to_optional_roots →
      stack.getLast? = some root →
      (∀ (inner2 : Location) (stack2 : List Location),
        (inner2, stack2) ∈ location_to_optional_roots →
        stack2.getLast? = some root → inner2 = inner) →
      root ∉ complex_optional_roots →
      lookupAssoc res root = some ⟨inner.markName, e⟩) ∧
    (extract_optional_location_root_info
        [Block.MarkLocation { markName := "A", field := none },
         Block.Traverse "e1" true,
         Block.MarkLocation { markName := "B", field := none },
         Block.EndOptional] =
      .ok ([], [({ markName := "B", field := none },
        [{ markName := "A", field := none }])]) ∧
     extract_simple_optional_location_info
        [Block.MarkLocation { markName := "A", field := none },
         Block.Traverse "e1" true,
         Block.MarkLocation { markName := "B", field := none },
         Block.EndOptional]
        []
        [({ markName := "B", field := none }, [{ markName := "A", field := none }])] =
      .ok [({ markName := "A", field := none },
        { inner_location_name := "B", edge_field := "e1" })]) := by
  refine ⟨?_, ?_, rfl, rfl⟩
  · intro ir_blocks cro ltor res root info hok hmem
    rw [extract_simple_optional_location_info] at hok
    cases hml : location_to_preceding_optional_root ltor with
    | error msg => rw [hml] at hok; exact Except.noConfusion hok
    | ok items =>
      rw [hml] at hok
      cases hfold : extract_folds_from_ir_blocks ir_blocks with
      | error msg => rw [hfold] at hok; exact Except.noConfusion hok
      | ok pr =>
        obtain ⟨fs, non_folded⟩ := pr
        rw [hfold] at hok
        have hok2 : simple_optional_loop
            (items.foldl
              (fun acc p => if p.2 ∈ cro then acc else updateAssoc acc p.2 p.1)
              ([] : List (Location × Location)))
            [] none non_folded = res := Except.ok.inj hok
        rw [← hok2] at hmem
        rcases simple_loop_entries non_folded _ [] none root info hmem with h2 | h2
        · simp at h2
        · obtain ⟨inner, A, e, rest, hdec, hlast, hlk, hinfo⟩ := h2
          have hsm := lookupAssoc_mem hlk
          rcases simple_map_entries _ [] cro root inner hsm with h3 | h3
          · simp at h3
          · obtain ⟨hitems, hnotc⟩ := h3
            obtain ⟨st, hst, hstl⟩ :=
              (location_to_preceding_mem ltor items hml inner root).mp hitems
            refine ⟨hnotc, ⟨inner, st, hst, hstl, ?_⟩,
              ⟨fs, non_folded, A, rest, rfl, ?_, hlast⟩⟩
            · rw [hinfo]
            · rw [hdec, hinfo]
  · intro ir_blocks cro ltor res fs non_folded A rest e root inner stack
      hok hfold hdec hlast hrest hmem hstk huniq hnotc
    rw [extract_simple_optional_location_info] at hok
    cases hml : location_to_preceding_optional_root ltor with
    | error msg => rw [hml] at hok; exact Except.noConfusion hok
    | ok items =>
      rw [hml, hfold] at hok
      have hok2 : simple_optional_loop
          (items.foldl
            (fun acc p => if p.2 ∈ cro then acc else updateAssoc acc p.2 p.1)
            ([] : List (Location × Location)))
          [] none non_folded = res := Except.ok.inj hok
      have hitem : (inner, root) ∈ items :=
        (location_to_preceding_mem ltor items hml inner root).mpr ⟨stack, hmem, hstk⟩
      have huniq2 : ∀ x, (x, root) ∈ items → x = inner := by
        intro x hx
        obtain ⟨st, hst, hstl⟩ := (location_to_preceding_mem ltor items hml x root).mp hx
        exact huniq x st hst hstl
      have hlkroot := sm_lookup_complete items ([] : List (Location × Location)) cro
        root inner huniq2 hnotc (Or.inl hitem)
      rw [← hok2, hdec]
      exact simple_loop_complete_key _ [] A rest e root inner hlast hlkroot hrest

theorem c3_extract_simple_optional_location_info_witness :
    lookupAssoc
      [(({ markName := "A", field := none } : Location),
        ({ inner_location_name := "B", edge_field := "e1" } : SimpleOptionalInfo))]
      { markName := "A", field := none } =
      some { inner_location_name := "B", edge_field := "e1" } :=
  c3_extract_simple_optional_location_info.2.1
    [Block.MarkLocation { markName := "A", field := none },
     Block.Traverse "e1" true,
     Block.MarkLocation { markName := "B", field := none },
     Block.EndOptional]
    []
    [({ markName := "B", field := none }, [{ markName := "A", field := none }])]
    [({ markName := "A", field := none },
      { inner_location_name := "B", edge_field := "e1" })]
    []
    [Block.MarkLocation { markName := "A", field := none },
     Block.Traverse "e1" true,
     Block.MarkLocation { markName := "B", field := none },
     Block.EndOptional]
    [Block.MarkLocation { markName := "A", field := none }]
    [Block.MarkLocation { markName := "B", field := none }, Block.EndOptional]
    "e1"
    { markName := "A", field := none }
    { markName := "B", field := none }
    [{ markName := "A", field := none }]
    rfl
    rfl
    rfl
    rfl
    (by
      intro A2 e2 rest2 h
      cases A2 with
      | nil => simp at h
      | cons a1 A3 =>
        cases A3 with
        | nil => simp at h
        | cons a2 A4 =>
          have hlen := congrArg List.length h
          simp at hlen)
    (by decide)
    rfl
    (by
      intro i2 st2 h hl
      simp only [List.mem_singleton, Prod.mk.injEq] at h
      exact h.1)
    (by decide)

/-- C1: for every instruction sequence and total metadata lookup,
lower_context_field_existence replaces every ContextFieldExistence(location)
with an inequality comparison between a vertex-context reference over the
looked-up type and NullLiteral, building an OutputContextVertex inside
ConstructResult instructions and a plain ContextField in every other
instruction, leaving all other expressions unchanged, and the result contains
no ContextFieldExistence node anywhere. -/
theorem c1_lower_context_field_existence (ir_blocks : List Block)
    (query_metadata_table : Location → String) :
    lower_context_field_existence ir_blocks query_metadata_table =
      ir_blocks.map (replaceExistenceInBlock query_metadata_table) ∧
    (lower_context_field_existence ir_blocks query_metadata_table).all
      (fun b => !b.hasContextFieldExistence) = true := by
  have h1 := lower_eq_map ir_blocks query_metadata_table
  refine ⟨h1, ?_⟩
  rw [h1, List.all_eq_true]
  intro b hb
  obtain ⟨b0, _, rfl⟩ := List.mem_map.mp hb
  simp [replaceExistenceInBlock_no_cfe]
